import Mathlib

/-!
Verification development for the contraction-hierarchies engine in
`backend/cpp_native/ch_core.cpp` (class `CHGraph`).

Modelling conventions used throughout this file:

* C++ `double` weights are modelled as exact rationals (`Rat`).  The engine
  only ever adds and compares weights, and the host supplies integer values
  scaled by 1000, so rational arithmetic matches the C++ computation on the
  inputs of interest.
* Out-of-range `std::vector` indexing is undefined behaviour in the C++
  source.  A mutator call that would perform such an access is modelled as
  returning `none`; internal reads use `getD` defaults and are only
  exercised on well-formed states.
* The C++ `while` loops and the recursive `unpack` are modelled with an
  explicit fuel argument; exhausting the fuel yields `none` (marking
  non-termination).  Fuel values are chosen generously; where a claim is
  about termination the adequacy of a concrete fuel is proved.
* `std::priority_queue` is modelled as a list from which `popMinBy` extracts
  the least element under the same lexicographic order that the C++
  comparator `std::greater<>` uses on tuples.
* The `double` value `infinity` in the distance arrays is modelled by
  `Option Rat` with `none` standing for infinity, and the `-1` sentinels for
  `meet_node` are modelled by `Option Nat`; parent arrays keep the literal
  `-1` sentinel as an `Int`, exactly as in the source.
-/

/-- Edge record, from `struct Edge` in ch_core.cpp.  Successful insertions
only ever store in-range targets, hence `target : Nat`; `via_node` may hold
the sentinel `-1`, hence `Int`. -/
structure Edge where
  target : Nat
  weight : Rat
  is_shortcut : Bool
  via_node : Int
deriving Repr, DecidableEq

/-- Graph state, from `class CHGraph` in ch_core.cpp. -/
structure CHGraph where
  num_nodes : Nat
  adj_out : List (List Edge)
  adj_in : List (List Edge)
  contracted : List Bool
  rank : List Int
  node_order : List Nat
deriving Repr, DecidableEq

namespace CHGraph

/-- Constructor `CHGraph(int n)`. -/
def new (n : Nat) : CHGraph :=
  { num_nodes := n
    adj_out := List.replicate n []
    adj_in := List.replicate n []
    contracted := List.replicate n false
    rank := List.replicate n (-1)
    node_order := [] }

/-- Read access `adj_out[u]`. -/
def outEdges (g : CHGraph) (u : Nat) : List Edge := g.adj_out.getD u []

/-- Read access `adj_in[v]`. -/
def inEdges (g : CHGraph) (v : Nat) : List Edge := g.adj_in.getD v []

/-- Read access `contracted[t]`. -/
def contractedAt (g : CHGraph) (t : Nat) : Bool := g.contracted.getD t false

/-- Read access `rank[t]`. -/
def rankAt (g : CHGraph) (t : Nat) : Int := g.rank.getD t (-1)

/-- `adj_out[u].push_back(e)`. -/
def pushOut (g : CHGraph) (u : Nat) (e : Edge) : CHGraph :=
  { g with adj_out := g.adj_out.set u (g.adj_out.getD u [] ++ [e]) }

/-- `adj_in[v].push_back(e)`. -/
def pushIn (g : CHGraph) (v : Nat) (e : Edge) : CHGraph :=
  { g with adj_in := g.adj_in.set v (g.adj_in.getD v [] ++ [e]) }

/-- `0 <= i && i < num_nodes`. -/
def inRangeB (g : CHGraph) (i : Int) : Bool :=
  decide (0 ≤ i) && decide (i < (g.num_nodes : Int))

/-- `void add_edge(int u, int v, double weight)`.  The C++ body performs two
unchecked vector accesses; an out-of-range index is undefined behaviour,
modelled as `none`. -/
def add_edge (g : CHGraph) (u v : Int) (w : Rat) : Option CHGraph :=
  if inRangeB g u && inRangeB g v then
    some (pushIn
      (pushOut g u.toNat { target := v.toNat, weight := w, is_shortcut := false, via_node := -1 })
      v.toNat { target := u.toNat, weight := w, is_shortcut := false, via_node := -1 })
  else none

/-- `void add_ch_edge(int u, int v, double weight, bool is_shortcut, int via)`.
Unchecked accesses as in `add_edge`. -/
def add_ch_edge (g : CHGraph) (u v : Int) (w : Rat) (sc : Bool) (via : Int) : Option CHGraph :=
  if inRangeB g u && inRangeB g v then
    some (pushIn
      (pushOut g u.toNat { target := v.toNat, weight := w, is_shortcut := sc, via_node := via })
      v.toNat { target := u.toNat, weight := w, is_shortcut := sc, via_node := via })
  else none

/-- `void set_rank(int u, int r)`: performs its own bounds check and silently
ignores out-of-range `u`. -/
def set_rank (g : CHGraph) (u : Int) (r : Int) : CHGraph :=
  if 0 ≤ u ∧ u < (g.num_nodes : Int) then { g with rank := g.rank.set u.toNat r } else g

/-- Total number of records in `adj_out` (used for fuel bounds). -/
def totalOut (g : CHGraph) : Nat := (g.adj_out.map List.length).sum

/-- Total number of records in `adj_in`. -/
def totalIn (g : CHGraph) : Nat := (g.adj_in.map List.length).sum

/-- Lexicographic order on witness-queue entries `(dist, node, hops)`, as
`std::greater<>` compares `std::tuple<double,int,int>`. -/
def entryLe (a b : Rat × Nat × Nat) : Bool :=
  if a.1 < b.1 then true
  else if b.1 < a.1 then false
  else if a.2.1 < b.2.1 then true
  else if b.2.1 < a.2.1 then false
  else decide (a.2.2 ≤ b.2.2)

/-- Extract the least element of a list under `le` together with the
remaining elements; models popping a `std::priority_queue`. -/
def popMinBy {α : Type} (le : α → α → Bool) : List α → Option (α × List α)
  | [] => none
  | a :: rest =>
    match popMinBy le rest with
    | none => some (a, [])
    | some (m, r) => if le a m then some (a, rest) else some (m, a :: r)

/-- Main loop of `witness_search`, fuelled.  Mirrors the C++ loop: pop the
least `(d, curr, h)`; fail when `d > max_dist`; succeed on `curr == v`; skip
expansion at the hop limit; otherwise relax outgoing edges subject to the
contracted-node, exclusion and distance filters. -/
def witnessAux (g : CHGraph) (v : Nat) (maxDist : Rat) (excl : Int) (hop : Nat) :
    Nat → List (Rat × Nat × Nat) → Bool
  | 0, _ => false
  | fuel + 1, pq =>
    match popMinBy entryLe pq with
    | none => false
    | some ((d, curr, h), rest) =>
      if maxDist < d then false
      else if curr = v then true
      else if hop ≤ h then witnessAux g v maxDist excl hop fuel rest
      else
        let pushes := (outEdges g curr).filterMap fun e =>
          if contractedAt g e.target && !(e.target == v) then none
          else if (e.target : Int) == excl then none
          else if d + e.weight ≤ maxDist then some (d + e.weight, e.target, h + 1)
          else none
        witnessAux g v maxDist excl hop fuel (rest ++ pushes)

/-- `bool witness_search(int u, int v, double max_dist, int exclude_node,
int hop_limit)`: direct-edge early exit, then the fuelled bounded Dijkstra.
The fuel `(totalOut g + 1) ^ hop_limit + 1` dominates the queue measure, so
the loop is never cut short (proved below). -/
def witness_search (g : CHGraph) (u v : Nat) (maxDist : Rat) (excl : Int) (hop : Nat) : Bool :=
  if (outEdges g u).any (fun e => e.target == v && decide (e.weight ≤ maxDist)) then true
  else witnessAux g v maxDist excl hop ((totalOut g + 1) ^ hop + 1) [(0, u, 0)]

/-- Append the shortcut pair `(u → w, total, via node)` to `adj_out[u]` and
`adj_in[w]`, as in the insertion branch of `contract_node`. -/
def insertShortcut (g : CHGraph) (u w : Nat) (total : Rat) (node : Nat) : CHGraph :=
  pushIn
    (pushOut g u { target := w, weight := total, is_shortcut := true, via_node := (node : Int) })
    w { target := u, weight := total, is_shortcut := true, via_node := (node : Int) }

/-- Inner loop of `contract_node` over `out_neighbors` for a fixed in-edge.
The `Bool` result records whether the 100-shortcut cap caused an early
`return` from the whole function. -/
def contractInner (nd : Nat) (skipW : Bool) (u : Nat) (dUV : Rat) :
    List Edge → CHGraph → Nat → CHGraph × Nat × Bool
  | [], g, cnt => (g, cnt, false)
  | oe :: rest, g, cnt =>
    if u = oe.target then contractInner nd skipW u dUV rest g cnt
    else if 100 ≤ cnt then (g, cnt, true)
    else
      let total := dUV + oe.weight
      if witness_search g u oe.target total (nd : Int) (if skipW then 1 else 3) then
        contractInner nd skipW u dUV rest g cnt
      else
        contractInner nd skipW u dUV rest (insertShortcut g u oe.target total nd) (cnt + 1)

/-- Outer loop of `contract_node` over `in_neighbors`. -/
def contractOuter (nd : Nat) (skipW : Bool) (outs : List Edge) :
    List Edge → CHGraph → Nat → CHGraph × Nat
  | [], g, cnt => (g, cnt)
  | ie :: rest, g, cnt =>
    match contractInner nd skipW ie.target ie.weight outs g cnt with
    | (g1, cnt1, true) => (g1, cnt1)
    | (g1, cnt1, false) => contractOuter nd skipW outs rest g1 cnt1

/-- `contracted[node] = b`. -/
def setContracted (g : CHGraph) (nd : Nat) (b : Bool) : CHGraph :=
  { g with contracted := g.contracted.set nd b }

/-- `int contract_node(int node)`: mark contracted, collect uncontracted
in/out neighbours, pick the witness hop limit from the complexity budget,
then run the candidate-pair loops. -/
def contract_node (g : CHGraph) (nd : Nat) : CHGraph × Nat :=
  let g1 := setContracted g nd true
  let ins := (inEdges g1 nd).filter fun e => !contractedAt g1 e.target
  let outs := (outEdges g1 nd).filter fun e => !contractedAt g1 e.target
  let skipW := decide (500 < ins.length * outs.length)
  contractOuter nd skipW outs ins g1 0

/-- `rank[node] = r` (the unchecked write inside `build_ch`). -/
def setRankNat (g : CHGraph) (nd : Nat) (r : Int) : CHGraph :=
  { g with rank := g.rank.set nd r }

/-- Iteration of `build_ch` over the ordering with the running rank counter. -/
def buildGo : List Nat → CHGraph → Nat → CHGraph
  | [], g, _ => g
  | nd :: rest, g, r => buildGo rest (contract_node (setRankNat g nd (r : Int)) nd).1 (r + 1)

/-- `void build_ch(std::vector<int> order)`.  The C++ writes `rank[node]`
without a bounds check, so an ordering containing an out-of-range node is
undefined behaviour, modelled as `none`. -/
def build_ch (g : CHGraph) (order : List Nat) : Option CHGraph :=
  if order.all (fun x => decide (x < g.num_nodes)) then
    some (buildGo order { g with node_order := order } 0)
  else none

/-- `adj_out[u]` for a C++ `int` index: negative or too-large indices are
undefined behaviour in the source; reads of such indices only occur on
garbage states and are modelled as the empty list. -/
def outEdgesI (g : CHGraph) (u : Int) : List Edge :=
  if 0 ≤ u then g.adj_out.getD u.toNat [] else []

/-- `void unpack(int u, int v, std::vector<int>& path)`, fuelled.  The C++
scans all of `adj_out[u]` and recurses on the first edge to `v` that is a
shortcut with a recorded via node; if none exists it appends `v`. -/
def unpackF (g : CHGraph) : Nat → Int → Int → List Int → Option (List Int)
  | 0, _, _, _ => none
  | fuel + 1, u, v, path =>
    match (outEdgesI g u).find? (fun e => (e.target : Int) == v && e.is_shortcut
        && e.via_node != -1) with
    | some e => (unpackF g fuel u e.via_node path).bind fun p1 => unpackF g fuel e.via_node v p1
    | none => some (path ++ [v])

/-- Scratch state of the bidirectional query, one field per local of
`CHGraph::query`. -/
structure QState where
  fwd_pq : List (Rat × Nat)
  bwd_pq : List (Rat × Nat)
  fwd_dist : List (Option Rat)
  bwd_dist : List (Option Rat)
  fwd_parent : List Int
  bwd_parent : List Int
  mu : Option Rat
  meet : Option Nat
deriving Repr, DecidableEq

/-- Lexicographic order on query-queue entries `(dist, node)`, as
`std::greater<>` compares `std::pair<double,int>`. -/
def pairLe (a b : Rat × Nat) : Bool :=
  if a.1 < b.1 then true
  else if b.1 < a.1 then false
  else decide (a.2 ≤ b.2)

/-- `x < o` where `o` may be the `infinity` sentinel. -/
def ltO (x : Rat) (o : Option Rat) : Bool :=
  match o with
  | none => true
  | some y => decide (x < y)

/-- `d <= o` where `o` may be the `infinity` sentinel. -/
def leO (d : Rat) (o : Option Rat) : Bool :=
  match o with
  | none => true
  | some m => decide (d ≤ m)

/-- Forward relaxation of all edges out of `u` at popped distance `d`:
the body of the forward half of the query loop. -/
def fwdRelax (g : CHGraph) (d : Rat) (u : Nat) (st : QState) : QState :=
  (outEdges g u).foldl (fun st e =>
    if rankAt g u < rankAt g e.target then
      let nd := d + e.weight
      if ltO nd (st.fwd_dist.getD e.target none) then
        let st1 := { st with
          fwd_dist := st.fwd_dist.set e.target (some nd)
          fwd_parent := st.fwd_parent.set e.target (u : Int)
          fwd_pq := st.fwd_pq ++ [(nd, e.target)] }
        match st1.bwd_dist.getD e.target none with
        | none => st1
        | some bd =>
          if ltO (nd + bd) st1.mu then
            { st1 with mu := some (nd + bd), meet := some e.target }
          else st1
      else st
    else st) st

/-- Backward relaxation of all edges into `u` at popped distance `d`. -/
def bwdRelax (g : CHGraph) (d : Rat) (u : Nat) (st : QState) : QState :=
  (inEdges g u).foldl (fun st e =>
    if rankAt g u < rankAt g e.target then
      let nd := d + e.weight
      if ltO nd (st.bwd_dist.getD e.target none) then
        let st1 := { st with
          bwd_dist := st.bwd_dist.set e.target (some nd)
          bwd_parent := st.bwd_parent.set e.target (u : Int)
          bwd_pq := st.bwd_pq ++ [(nd, e.target)] }
        match st1.fwd_dist.getD e.target none with
        | none => st1
        | some fd =>
          if ltO (nd + fd) st1.mu then
            { st1 with mu := some (nd + fd), meet := some e.target }
          else st1
      else st
    else st) st

/-- One forward step: pop the forward queue if non-empty and relax when the
popped distance does not exceed `mu`. -/
def fwdStep (g : CHGraph) (st : QState) : QState :=
  match popMinBy pairLe st.fwd_pq with
  | none => st
  | some ((d, u), rest) =>
    let st1 := { st with fwd_pq := rest }
    if leO d st1.mu then fwdRelax g d u st1 else st1

/-- One backward step, symmetric to `fwdStep`. -/
def bwdStep (g : CHGraph) (st : QState) : QState :=
  match popMinBy pairLe st.bwd_pq with
  | none => st
  | some ((d, u), rest) =>
    let st1 := { st with bwd_pq := rest }
    if leO d st1.mu then bwdRelax g d u st1 else st1

/-- The main query loop `while (!fwd_pq.empty() || !bwd_pq.empty())`,
fuelled. -/
def bidiLoop (g : CHGraph) : Nat → QState → Option QState
  | 0, _ => none
  | fuel + 1, st =>
    if st.fwd_pq.isEmpty && st.bwd_pq.isEmpty then some st
    else bidiLoop g fuel (bwdStep g (fwdStep g st))

/-- Initial query state for origin `o` and destination `t`. -/
def initQState (g : CHGraph) (o t : Nat) : QState :=
  { fwd_pq := [(0, o)]
    bwd_pq := [(0, t)]
    fwd_dist := (List.replicate g.num_nodes (none : Option Rat)).set o (some 0)
    bwd_dist := (List.replicate g.num_nodes (none : Option Rat)).set t (some 0)
    fwd_parent := List.replicate g.num_nodes (-1)
    bwd_parent := List.replicate g.num_nodes (-1)
    mu := none
    meet := none }

/-- Fuel for the query loop; generous upper bound, only its concrete value
on concrete inputs matters. -/
def queryFuel (g : CHGraph) : Nat := (totalOut g + totalIn g + 2) ^ (g.num_nodes + 2)

/-- Fuel for each `unpack` call (recursion depth is bounded by the via
ranks, which lie below `num_nodes`). -/
def unpFuel (g : CHGraph) : Nat := g.num_nodes + 2

/-- The `while (curr != origin)` trace of the forward parent chain,
collecting `up_path`; reading a parent entry at an out-of-range index is
undefined behaviour, modelled as `none`. -/
def traceUp (par : List Int) (origin : Int) : Nat → Int → List Int → Option (List Int)
  | 0, _, _ => none
  | fuel + 1, curr, acc =>
    if curr = origin then some acc
    else if 0 ≤ curr ∧ curr < (par.length : Int) then
      traceUp par origin fuel (par.getD curr.toNat (-1)) (acc ++ [curr])
    else none

/-- The `for (i = up_path.size() - 1; i >= 0; --i) unpack(...)` loop: unpack
each consecutive pair along a node sequence. -/
def unpackSeq (g : CHGraph) (fuel : Nat) : List Int → Int → List Int → Option (List Int)
  | [], _, path => some path
  | nxt :: rest, curr, path =>
    (unpackF g fuel curr nxt path).bind fun p1 => unpackSeq g fuel rest nxt p1

/-- The `while (curr != dest)` backward walk interleaving parent reads and
`unpack` calls. -/
def bwdWalk (g : CHGraph) (par : List Int) (dest : Int) (uf : Nat) :
    Nat → Int → List Int → Option (List Int)
  | 0, _, _ => none
  | fuel + 1, curr, path =>
    if curr = dest then some path
    else if 0 ≤ curr ∧ curr < (par.length : Int) then
      let nxt := par.getD curr.toNat (-1)
      (unpackF g uf curr nxt path).bind fun p1 => bwdWalk g par dest uf fuel nxt p1
    else none

/-- `py::tuple query(int origin, int dest)`: range check, bidirectional
upward search, then path reconstruction and the division by 1000. -/
def query (g : CHGraph) (origin dest : Int) : Option (List Int × Rat) :=
  if !(inRangeB g origin && inRangeB g dest) then some ([], 0)
  else
    match bidiLoop g (queryFuel g) (initQState g origin.toNat dest.toNat) with
    | none => none
    | some st =>
      match st.meet with
      | none => some ([], 0)
      | some meet =>
        (traceUp st.fwd_parent origin (g.num_nodes + 2) (meet : Int) []).bind fun upPath =>
        (unpackSeq g (unpFuel g) upPath.reverse origin [origin]).bind fun p1 =>
        (bwdWalk g st.bwd_parent dest (unpFuel g) (g.num_nodes + 2) (meet : Int) p1).bind fun p2 =>
        some (p2, st.mu.getD 0 / 1000)

end CHGraph

/-! ### Basic list bookkeeping lemmas -/

theorem getD_set_self {α : Type} (l : List α) (i : Nat) (a d : α) (h : i < l.length) :
    (l.set i a).getD i d = a := by
  simp [List.getD_eq_getElem?_getD, List.getElem?_set_self h]

theorem getD_set_ne {α : Type} (l : List α) (i j : Nat) (a d : α) (h : i ≠ j) :
    (l.set i a).getD j d = l.getD j d := by
  simp [List.getD_eq_getElem?_getD, List.getElem?_set_ne h]

theorem set_oob {α : Type} (l : List α) (i : Nat) (a : α) (h : l.length ≤ i) :
    l.set i a = l :=
  List.set_eq_of_length_le h

theorem sum_map_length_set (L : List (List Edge)) (i : Nat) (x : List Edge)
    (h : i < L.length) :
    ((L.set i x).map List.length).sum + (L.getD i []).length
      = (L.map List.length).sum + x.length := by
  induction L generalizing i with
  | nil => simp at h
  | cons hd tl ih =>
    cases i with
    | zero => simp [List.getD_cons_zero]; omega
    | succ j =>
      simp only [List.set_cons_succ, List.map_cons, List.sum_cons, List.getD_cons_succ]
      have := ih j (by simpa using h)
      omega

/-! ### Claim C2: `query(0,0)` on the one-node graph (scenario 4 of the spec) -/

/-- C2: the spec's scenario 4 expects `query(0,0)` on a single-node graph to
return `path = [0]`, `distance = 0.0`.  The code records a meeting node only
inside edge relaxation, so with no edges `meet_node` stays `-1` and the
unreachable sentinel (empty path) is returned instead.  This theorem
evaluates the code at that failing input. -/
theorem query_self_single_node_eval :
    CHGraph.query (CHGraph.new 1) 0 0 = some ([], 0) := by decide

/-! ### Claim C10: `set_rank` on an out-of-range index -/

/-- C10: `set_rank(u, r)` with `u` outside `[0, N)` returns normally and
leaves the whole graph state unchanged; it raises no error. -/
theorem set_rank_out_of_range_noop (g : CHGraph) (u r : Int)
    (h : u < 0 ∨ (g.num_nodes : Int) ≤ u) :
    CHGraph.set_rank g u r = g := by
  unfold CHGraph.set_rank
  rw [if_neg]
  rintro ⟨h0, h1⟩
  rcases h with h | h <;> omega

/-- Witness for C10 at a concrete input: the 2-node graph with `u = 9`. -/
theorem set_rank_out_of_range_noop_witness :
    CHGraph.set_rank (CHGraph.new 2) 9 3 = CHGraph.new 2 :=
  set_rank_out_of_range_noop (CHGraph.new 2) 9 3 (Or.inr (by decide))

/-! ### Claim C8: out-of-range indices passed to mutators -/

/-- C8 counterexample: the claim says every mutator fails with an
`InvalidIndex` error on an out-of-range index, leaving the graph unchanged.
On the one-node graph with index 5: `set_rank` returns normally (no error
exists in the code) with the graph unchanged, and `add_edge` performs an
unchecked `std::vector` access, which is undefined behaviour (`none` in
this model), not an `InvalidIndex` error. -/
theorem mutator_invalidindex_counterexample :
    CHGraph.set_rank (CHGraph.new 1) 5 7 = CHGraph.new 1 ∧
      CHGraph.add_edge (CHGraph.new 1) 5 0 1 = none := by
  constructor
  · decide
  · decide

/-- C8 amended: `add_edge` and `add_ch_edge` perform no index validation
(an out-of-range argument in either position is undefined behaviour,
modelled `none`), and `set_rank` checks its index itself and silently
ignores an out-of-range `u`, leaving the graph unchanged; no mutator
reports an `InvalidIndex` error. -/
theorem mutator_out_of_range_behavior (g : CHGraph) (u v : Int) (w : Rat)
    (sc : Bool) (via r : Int) (h : u < 0 ∨ (g.num_nodes : Int) ≤ u) :
    CHGraph.add_edge g u v w = none ∧ CHGraph.add_edge g v u w = none ∧
      CHGraph.add_ch_edge g u v w sc via = none ∧
      CHGraph.add_ch_edge g v u w sc via = none ∧
      CHGraph.set_rank g u r = g := by
  have hb : CHGraph.inRangeB g u = false := by
    simp only [CHGraph.inRangeB, Bool.and_eq_false_iff, decide_eq_false_iff_not, not_le, not_lt]
    rcases h with h | h
    · exact Or.inl (by omega)
    · exact Or.inr (by omega)
  refine ⟨?_, ?_, ?_, ?_, ?_⟩
  · simp [CHGraph.add_edge, hb]
  · simp [CHGraph.add_edge, hb]
  · simp [CHGraph.add_ch_edge, hb]
  · simp [CHGraph.add_ch_edge, hb]
  · unfold CHGraph.set_rank
    rw [if_neg]
    rintro ⟨h0, h1⟩
    rcases h with h | h <;> omega

/-- Witness for C8 (amended) at a concrete input: 2-node graph, `u = -3`. -/
theorem mutator_out_of_range_behavior_witness :
    CHGraph.add_edge (CHGraph.new 2) (-3) 0 5 = none ∧
      CHGraph.add_edge (CHGraph.new 2) 0 (-3) 5 = none ∧
      CHGraph.add_ch_edge (CHGraph.new 2) (-3) 0 5 true 1 = none ∧
      CHGraph.add_ch_edge (CHGraph.new 2) 0 (-3) 5 true 1 = none ∧
      CHGraph.set_rank (CHGraph.new 2) (-3) 4 = CHGraph.new 2 :=
  mutator_out_of_range_behavior (CHGraph.new 2) (-3) 0 5 true 1 4 (Or.inl (by decide))

/-! ### Contraction-loop bookkeeping (claims C5, C6, C7) -/

namespace CHGraph

/-- `g'` extends `g` by appending only shortcut edges with via node `nd`
that are never self-loops, on both adjacency sides. -/
def ExtendsSC (nd : Nat) (g g' : CHGraph) : Prop :=
  (∀ x, ∃ ext, outEdges g' x = outEdges g x ++ ext ∧
      ∀ e ∈ ext, e.is_shortcut = true ∧ e.via_node = (nd : Int) ∧ e.target ≠ x) ∧
  (∀ x, ∃ ext, inEdges g' x = inEdges g x ++ ext ∧
      ∀ e ∈ ext, e.is_shortcut = true ∧ e.via_node = (nd : Int) ∧ e.target ≠ x)

theorem ExtendsSC.rfl (nd : Nat) (g : CHGraph) : ExtendsSC nd g g :=
  ⟨fun x => ⟨[], by simp⟩, fun x => ⟨[], by simp⟩⟩

theorem ExtendsSC.trans {nd : Nat} {g1 g2 g3 : CHGraph}
    (h12 : ExtendsSC nd g1 g2) (h23 : ExtendsSC nd g2 g3) : ExtendsSC nd g1 g3 := by
  constructor
  · intro x
    obtain ⟨e1, he1, hp1⟩ := h12.1 x
    obtain ⟨e2, he2, hp2⟩ := h23.1 x
    refine ⟨e1 ++ e2, by rw [he2, he1, List.append_assoc], ?_⟩
    intro e he
    rcases List.mem_append.1 he with h | h
    · exact hp1 e h
    · exact hp2 e h
  · intro x
    obtain ⟨e1, he1, hp1⟩ := h12.2 x
    obtain ⟨e2, he2, hp2⟩ := h23.2 x
    refine ⟨e1 ++ e2, by rw [he2, he1, List.append_assoc], ?_⟩
    intro e he
    rcases List.mem_append.1 he with h | h
    · exact hp1 e h
    · exact hp2 e h

theorem outEdges_pushOut_self (g : CHGraph) (u : Nat) (e : Edge) (h : u < g.adj_out.length) :
    outEdges (pushOut g u e) u = outEdges g u ++ [e] :=
  getD_set_self g.adj_out u _ [] h

theorem outEdges_pushOut_ne (g : CHGraph) (u x : Nat) (e : Edge) (h : u ≠ x) :
    outEdges (pushOut g u e) x = outEdges g x :=
  getD_set_ne g.adj_out u x _ [] h

theorem outEdges_pushOut_oob (g : CHGraph) (u : Nat) (e : Edge) (h : g.adj_out.length ≤ u) :
    (pushOut g u e).adj_out = g.adj_out := by
  simp [pushOut, set_oob _ _ _ h]

theorem inEdges_pushIn_self (g : CHGraph) (v : Nat) (e : Edge) (h : v < g.adj_in.length) :
    inEdges (pushIn g v e) v = inEdges g v ++ [e] :=
  getD_set_self g.adj_in v _ [] h

theorem inEdges_pushIn_ne (g : CHGraph) (v x : Nat) (e : Edge) (h : v ≠ x) :
    inEdges (pushIn g v e) x = inEdges g x :=
  getD_set_ne g.adj_in v x _ [] h

theorem inEdges_pushIn_oob (g : CHGraph) (v : Nat) (e : Edge) (h : g.adj_in.length ≤ v) :
    (pushIn g v e).adj_in = g.adj_in := by
  simp [pushIn, set_oob _ _ _ h]

theorem insertShortcut_outEdges (g : CHGraph) (u w : Nat) (total : Rat) (nd : Nat) (x : Nat) :
    outEdges (insertShortcut g u w total nd) x
      = outEdges g x ++ (if x = u ∧ u < g.adj_out.length
          then [{ target := w, weight := total, is_shortcut := true, via_node := (nd : Int) }]
          else []) := by
  have h1 : outEdges (insertShortcut g u w total nd) x
      = outEdges (pushOut g u
          { target := w, weight := total, is_shortcut := true, via_node := (nd : Int) }) x := rfl
  rw [h1]
  by_cases hx : x = u
  · subst hx
    by_cases hl : x < g.adj_out.length
    · rw [outEdges_pushOut_self g x _ hl, if_pos ⟨rfl, hl⟩]
    · rw [if_neg (fun hc => hl hc.2), List.append_nil]
      have h2 := outEdges_pushOut_oob g x
        { target := w, weight := total, is_shortcut := true, via_node := (nd : Int) }
        (Nat.le_of_not_lt hl)
      simp [outEdges, h2]
  · rw [outEdges_pushOut_ne g u x _ (fun hh => hx hh.symm),
      if_neg (fun hc => hx hc.1), List.append_nil]

theorem insertShortcut_inEdges (g : CHGraph) (u w : Nat) (total : Rat) (nd : Nat) (x : Nat) :
    inEdges (insertShortcut g u w total nd) x
      = inEdges g x ++ (if x = w ∧ w < g.adj_in.length
          then [{ target := u, weight := total, is_shortcut := true, via_node := (nd : Int) }]
          else []) := by
  by_cases hx : x = w
  · subst hx
    by_cases hl : x < g.adj_in.length
    · have hstep := inEdges_pushIn_self (pushOut g u
        { target := x, weight := total, is_shortcut := true, via_node := (nd : Int) }) x
        { target := u, weight := total, is_shortcut := true, via_node := (nd : Int) } hl
      rw [show inEdges (insertShortcut g u x total nd) x = _ from hstep, if_pos ⟨rfl, hl⟩]
      rfl
    · have h2 := inEdges_pushIn_oob (pushOut g u
        { target := x, weight := total, is_shortcut := true, via_node := (nd : Int) }) x
        { target := u, weight := total, is_shortcut := true, via_node := (nd : Int) }
        (Nat.le_of_not_lt hl)
      rw [if_neg (fun hc => hl hc.2), List.append_nil]
      show (pushIn _ x _).adj_in.getD x [] = g.adj_in.getD x []
      rw [h2]
      rfl
  · have hstep := inEdges_pushIn_ne (pushOut g u
      { target := w, weight := total, is_shortcut := true, via_node := (nd : Int) }) w x
      { target := u, weight := total, is_shortcut := true, via_node := (nd : Int) }
      (fun hh => hx hh.symm)
    rw [show inEdges (insertShortcut g u w total nd) x = _ from hstep,
      if_neg (fun hc => hx hc.1), List.append_nil]
    rfl

theorem insertShortcut_extends {g : CHGraph} {u w : Nat} (total : Rat) (nd : Nat)
    (huw : u ≠ w) : ExtendsSC nd g (insertShortcut g u w total nd) := by
  constructor
  · intro x
    refine ⟨_, insertShortcut_outEdges g u w total nd x, ?_⟩
    intro e he
    split at he
    · rename_i hc
      simp only [List.mem_singleton] at he
      subst he
      exact ⟨rfl, rfl, fun hhh => huw (hc.1 ▸ hhh.symm)⟩
    · simp at he
  · intro x
    refine ⟨_, insertShortcut_inEdges g u w total nd x, ?_⟩
    intro e he
    split at he
    · rename_i hc
      simp only [List.mem_singleton] at he
      subst he
      exact ⟨rfl, rfl, fun hhh => huw (hc.1 ▸ hhh)⟩
    · simp at he

theorem insertShortcut_fields (g : CHGraph) (u w : Nat) (total : Rat) (nd : Nat) :
    (insertShortcut g u w total nd).num_nodes = g.num_nodes ∧
    (insertShortcut g u w total nd).adj_out.length = g.adj_out.length ∧
    (insertShortcut g u w total nd).adj_in.length = g.adj_in.length ∧
    (insertShortcut g u w total nd).contracted = g.contracted ∧
    (insertShortcut g u w total nd).rank = g.rank ∧
    (insertShortcut g u w total nd).node_order = g.node_order := by
  simp [insertShortcut, pushIn, pushOut]

theorem totalOut_insertShortcut (g : CHGraph) (u w : Nat) (total : Rat) (nd : Nat)
    (h : u < g.adj_out.length) :
    totalOut (insertShortcut g u w total nd) = totalOut g + 1 := by
  have hs := sum_map_length_set g.adj_out u (g.adj_out.getD u [] ++
    [{ target := w, weight := total, is_shortcut := true, via_node := (nd : Int) }]) h
  simp only [List.length_append, List.length_singleton] at hs
  unfold totalOut
  rw [show (insertShortcut g u w total nd).adj_out
      = g.adj_out.set u (g.adj_out.getD u [] ++
        [{ target := w, weight := total, is_shortcut := true, via_node := (nd : Int) }]) from rfl]
  omega

theorem totalIn_insertShortcut (g : CHGraph) (u w : Nat) (total : Rat) (nd : Nat)
    (h : w < g.adj_in.length) :
    totalIn (insertShortcut g u w total nd) = totalIn g + 1 := by
  have hs := sum_map_length_set g.adj_in w (g.adj_in.getD w [] ++
    [{ target := u, weight := total, is_shortcut := true, via_node := (nd : Int) }]) h
  simp only [List.length_append, List.length_singleton] at hs
  unfold totalIn
  rw [show (insertShortcut g u w total nd).adj_in
      = g.adj_in.set w (g.adj_in.getD w [] ++
        [{ target := u, weight := total, is_shortcut := true, via_node := (nd : Int) }]) from rfl]
  omega

theorem contractInner_spec (nd : Nat) (skipW : Bool) (u : Nat) (dUV : Rat)
    (outs : List Edge) : ∀ (g : CHGraph) (cnt : Nat), cnt ≤ 100 →
    (contractInner nd skipW u dUV outs g cnt).2.1 ≤ 100 ∧
    (contractInner nd skipW u dUV outs g cnt).1.num_nodes = g.num_nodes ∧
    (contractInner nd skipW u dUV outs g cnt).1.adj_out.length = g.adj_out.length ∧
    (contractInner nd skipW u dUV outs g cnt).1.adj_in.length = g.adj_in.length ∧
    (contractInner nd skipW u dUV outs g cnt).1.contracted = g.contracted ∧
    (contractInner nd skipW u dUV outs g cnt).1.rank = g.rank ∧
    (contractInner nd skipW u dUV outs g cnt).1.node_order = g.node_order ∧
    ExtendsSC nd g (contractInner nd skipW u dUV outs g cnt).1 ∧
    (u < g.adj_out.length → (∀ e ∈ outs, e.target < g.adj_in.length) →
      totalOut (contractInner nd skipW u dUV outs g cnt).1 + cnt
          = totalOut g + (contractInner nd skipW u dUV outs g cnt).2.1 ∧
        totalIn (contractInner nd skipW u dUV outs g cnt).1 + cnt
          = totalIn g + (contractInner nd skipW u dUV outs g cnt).2.1) := by
  induction outs with
  | nil =>
    intro g cnt h100
    refine ⟨h100, rfl, rfl, rfl, rfl, rfl, rfl, ExtendsSC.rfl nd g, fun _ _ => ⟨rfl, rfl⟩⟩
  | cons oe rest ih =>
    intro g cnt h100
    by_cases h1 : u = oe.target
    · have hred : contractInner nd skipW u dUV (oe :: rest) g cnt
          = contractInner nd skipW u dUV rest g cnt := by
        rw [contractInner, if_pos h1]
      rw [hred]
      obtain ⟨a, b, c, d, e, f, g2, h2, i2⟩ := ih g cnt h100
      exact ⟨a, b, c, d, e, f, g2, h2, fun hu houts => i2 hu (fun e he => houts e (by simp [he]))⟩
    · by_cases h2 : 100 ≤ cnt
      · have hred : contractInner nd skipW u dUV (oe :: rest) g cnt = (g, cnt, true) := by
          rw [contractInner, if_neg h1, if_pos h2]
        rw [hred]
        exact ⟨h100, rfl, rfl, rfl, rfl, rfl, rfl, ExtendsSC.rfl nd g, fun _ _ => ⟨rfl, rfl⟩⟩
      · by_cases h3 : witness_search g u oe.target (dUV + oe.weight) (nd : Int)
            (if skipW then 1 else 3) = true
        · have hred : contractInner nd skipW u dUV (oe :: rest) g cnt
              = contractInner nd skipW u dUV rest g cnt := by
            rw [contractInner, if_neg h1, if_neg h2]
            simp only [h3, if_true]
          rw [hred]
          obtain ⟨a, b, c, d, e, f, g2, h4, i2⟩ := ih g cnt h100
          exact ⟨a, b, c, d, e, f, g2, h4,
            fun hu houts => i2 hu (fun e he => houts e (by simp [he]))⟩
        · have hred : contractInner nd skipW u dUV (oe :: rest) g cnt
              = contractInner nd skipW u dUV rest
                  (insertShortcut g u oe.target (dUV + oe.weight) nd) (cnt + 1) := by
            rw [contractInner, if_neg h1, if_neg h2]
            simp only [Bool.not_eq_true] at h3
            dsimp only
            rw [h3]
            simp
          rw [hred]
          have hcnt1 : cnt + 1 ≤ 100 := by omega
          obtain ⟨a, b, c, d, e, f, g2, h4, i2⟩ :=
            ih (insertShortcut g u oe.target (dUV + oe.weight) nd) (cnt + 1) hcnt1
          obtain ⟨fn, fo, fi, fc, fr, fnn⟩ := insertShortcut_fields g u oe.target
            (dUV + oe.weight) nd
          refine ⟨a, by rw [b, fn], by rw [c, fo], by rw [d, fi], by rw [e, fc],
            by rw [f, fr], by rw [g2, fnn],
            ExtendsSC.trans (insertShortcut_extends (dUV + oe.weight) nd h1) h4, ?_⟩
          intro hu houts
          have hto := totalOut_insertShortcut g u oe.target (dUV + oe.weight) nd hu
          have hti := totalIn_insertShortcut g u oe.target (dUV + oe.weight) nd
            (houts oe (by simp))
          obtain ⟨t1, t2⟩ := i2 (by rw [fo]; exact hu)
            (fun e he => by rw [fi]; exact houts e (by simp [he]))
          constructor
          · rw [hto] at t1; omega
          · rw [hti] at t2; omega

theorem contractOuter_spec (nd : Nat) (skipW : Bool) (outs : List Edge) :
    ∀ (ins : List Edge) (g : CHGraph) (cnt : Nat), cnt ≤ 100 →
    (contractOuter nd skipW outs ins g cnt).2 ≤ 100 ∧
    (contractOuter nd skipW outs ins g cnt).1.num_nodes = g.num_nodes ∧
    (contractOuter nd skipW outs ins g cnt).1.adj_out.length = g.adj_out.length ∧
    (contractOuter nd skipW outs ins g cnt).1.adj_in.length = g.adj_in.length ∧
    (contractOuter nd skipW outs ins g cnt).1.contracted = g.contracted ∧
    (contractOuter nd skipW outs ins g cnt).1.rank = g.rank ∧
    (contractOuter nd skipW outs ins g cnt).1.node_order = g.node_order ∧
    ExtendsSC nd g (contractOuter nd skipW outs ins g cnt).1 ∧
    ((∀ e ∈ ins, e.target < g.adj_out.length) → (∀ e ∈ outs, e.target < g.adj_in.length) →
      totalOut (contractOuter nd skipW outs ins g cnt).1 + cnt
          = totalOut g + (contractOuter nd skipW outs ins g cnt).2 ∧
        totalIn (contractOuter nd skipW outs ins g cnt).1 + cnt
          = totalIn g + (contractOuter nd skipW outs ins g cnt).2) := by
  intro ins
  induction ins with
  | nil =>
    intro g cnt h100
    refine ⟨h100, rfl, rfl, rfl, rfl, rfl, rfl, ExtendsSC.rfl nd g, fun _ _ => ⟨rfl, rfl⟩⟩
  | cons ie rest ih =>
    intro g cnt h100
    obtain ⟨a, b, c, d, e, f, g2, h4, i2⟩ :=
      contractInner_spec nd skipW ie.target ie.weight outs g cnt h100
    rcases hsplit : contractInner nd skipW ie.target ie.weight outs g cnt with ⟨g1, cnt1, stop⟩
    rw [hsplit] at a b c d e f g2 h4 i2
    dsimp only at a b c d e f g2 h4 i2
    have hred : contractOuter nd skipW outs (ie :: rest) g cnt
        = if stop then (g1, cnt1) else contractOuter nd skipW outs rest g1 cnt1 := by
      rw [contractOuter, hsplit]
      cases stop <;> simp
    cases stop with
    | true =>
      rw [hred, if_pos rfl]
      exact ⟨a, b, c, d, e, f, g2, h4, fun hins houts => i2 (hins ie (by simp)) houts⟩
    | false =>
      rw [hred, if_neg (by simp)]
      obtain ⟨a2, b2, c2, d2, e2, f2, g3, h5, i3⟩ := ih g1 cnt1 a
      refine ⟨a2, by rw [b2, b], by rw [c2, c], by rw [d2, d], by rw [e2, e],
        by rw [f2, f], by rw [g3, g2], ExtendsSC.trans h4 h5, ?_⟩
      intro hins houts
      obtain ⟨t1, t2⟩ := i2 (hins ie (by simp)) houts
      obtain ⟨t3, t4⟩ := i3 (fun e he => by rw [c]; exact hins e (by simp [he]))
        (fun e he => by rw [d]; exact houts e he)
      exact ⟨by omega, by omega⟩

end CHGraph

namespace CHGraph

theorem inEdges_target_lt (g : CHGraph)
    (hti : ∀ l ∈ g.adj_in, ∀ e ∈ l, e.target < g.num_nodes) :
    ∀ x, ∀ e ∈ inEdges g x, e.target < g.num_nodes := by
  intro x e he
  unfold inEdges at he
  by_cases hx : x < g.adj_in.length
  · rw [List.getD_eq_getElem?_getD, List.getElem?_eq_getElem hx] at he
    exact hti _ (List.getElem_mem hx) e he
  · rw [List.getD_eq_getElem?_getD, List.getElem?_eq_none (Nat.le_of_not_lt hx)] at he
    simp at he

theorem outEdges_target_lt (g : CHGraph)
    (hto : ∀ l ∈ g.adj_out, ∀ e ∈ l, e.target < g.num_nodes) :
    ∀ x, ∀ e ∈ outEdges g x, e.target < g.num_nodes := by
  intro x e he
  unfold outEdges at he
  by_cases hx : x < g.adj_out.length
  · rw [List.getD_eq_getElem?_getD, List.getElem?_eq_getElem hx] at he
    exact hto _ (List.getElem_mem hx) e he
  · rw [List.getD_eq_getElem?_getD, List.getElem?_eq_none (Nat.le_of_not_lt hx)] at he
    simp at he

end CHGraph

/-! ### Claim C7: the 100-shortcut cap and self-loop skipping in `contract_node` -/

open CHGraph in
/-- C7: on any well-formed adjacency, `contract_node(v)` inserts at most 100
shortcuts; its return value counts exactly the insertions (each insertion
adds one record to `adj_out` and one to `adj_in`, and the totals grow by
exactly the returned count, so once the cap is reached no further pair
inserts anything); and every inserted record is a shortcut with via `v`
whose target differs from the list it is appended to, so `u == w` candidate
pairs never insert. -/
theorem contract_node_cap_spec (g : CHGraph) (nd : Nat)
    (hlo : g.adj_out.length = g.num_nodes) (hli : g.adj_in.length = g.num_nodes)
    (hto : ∀ l ∈ g.adj_out, ∀ e ∈ l, e.target < g.num_nodes)
    (hti : ∀ l ∈ g.adj_in, ∀ e ∈ l, e.target < g.num_nodes) :
    (contract_node g nd).2 ≤ 100 ∧
    totalOut (contract_node g nd).1 = totalOut g + (contract_node g nd).2 ∧
    totalIn (contract_node g nd).1 = totalIn g + (contract_node g nd).2 ∧
    (∀ x, ∃ ext, outEdges (contract_node g nd).1 x = outEdges g x ++ ext ∧
      ∀ e ∈ ext, e.is_shortcut = true ∧ e.via_node = (nd : Int) ∧ e.target ≠ x) ∧
    (∀ x, ∃ ext, inEdges (contract_node g nd).1 x = inEdges g x ++ ext ∧
      ∀ e ∈ ext, e.is_shortcut = true ∧ e.via_node = (nd : Int) ∧ e.target ≠ x) := by
  have hinT := inEdges_target_lt g hti
  have houtT := outEdges_target_lt g hto
  set g1 : CHGraph := setContracted g nd true with hg1
  set ins : List Edge := (inEdges g1 nd).filter (fun e => !contractedAt g1 e.target) with hixs
  set outs : List Edge := (outEdges g1 nd).filter (fun e => !contractedAt g1 e.target) with hoxs
  set sw : Bool := decide (500 < ins.length * outs.length) with hsw
  have hdef : contract_node g nd = contractOuter nd sw outs ins g1 0 := rfl
  have h1 : ∀ e ∈ ins, e.target < g.num_nodes := by
    intro e he
    have hmem : e ∈ inEdges g1 nd := List.mem_of_mem_filter he
    have : inEdges g1 nd = inEdges g nd := rfl
    exact hinT nd e (this ▸ hmem)
  have h2 : ∀ e ∈ outs, e.target < g.num_nodes := by
    intro e he
    have hmem : e ∈ outEdges g1 nd := List.mem_of_mem_filter he
    have : outEdges g1 nd = outEdges g nd := rfl
    exact houtT nd e (this ▸ hmem)
  obtain ⟨ha, hb, hc, hd, he_, hf, hg2, hext, htot⟩ :=
    contractOuter_spec nd sw outs ins g1 0 (by omega)
  obtain ⟨t1, t2⟩ := htot
    (fun e he => by rw [show g1.adj_out = g.adj_out from rfl, hlo]; exact h1 e he)
    (fun e he => by rw [show g1.adj_in = g.adj_in from rfl, hli]; exact h2 e he)
  rw [hdef]
  have htg1o : totalOut g1 = totalOut g := rfl
  have htg1i : totalIn g1 = totalIn g := rfl
  refine ⟨ha, by rw [htg1o] at t1; omega, by rw [htg1i] at t2; omega, ?_, ?_⟩
  · exact hext.1
  · exact hext.2

/-- Witness for C7 at the concrete empty 2-node graph with `v = 0`. -/
theorem contract_node_cap_spec_witness :
    (CHGraph.contract_node (CHGraph.new 2) 0).2 ≤ 100 ∧
    CHGraph.totalOut (CHGraph.contract_node (CHGraph.new 2) 0).1
        = CHGraph.totalOut (CHGraph.new 2) + (CHGraph.contract_node (CHGraph.new 2) 0).2 ∧
    CHGraph.totalIn (CHGraph.contract_node (CHGraph.new 2) 0).1
        = CHGraph.totalIn (CHGraph.new 2) + (CHGraph.contract_node (CHGraph.new 2) 0).2 ∧
    (∀ x, ∃ ext, CHGraph.outEdges (CHGraph.contract_node (CHGraph.new 2) 0).1 x
        = CHGraph.outEdges (CHGraph.new 2) x ++ ext ∧
      ∀ e ∈ ext, e.is_shortcut = true ∧ e.via_node = ((0 : Nat) : Int) ∧ e.target ≠ x) ∧
    (∀ x, ∃ ext, CHGraph.inEdges (CHGraph.contract_node (CHGraph.new 2) 0).1 x
        = CHGraph.inEdges (CHGraph.new 2) x ++ ext ∧
      ∀ e ∈ ext, e.is_shortcut = true ∧ e.via_node = ((0 : Nat) : Int) ∧ e.target ≠ x) :=
  contract_node_cap_spec (CHGraph.new 2) 0 (by decide) (by decide)
    (by decide) (by decide)



/-! ### Claim C6: rank assignment in `build_ch` -/

namespace CHGraph

theorem contract_node_fields (g : CHGraph) (nd : Nat) :
    (contract_node g nd).1.rank = g.rank ∧
    (contract_node g nd).1.contracted = g.contracted.set nd true ∧
    (contract_node g nd).1.num_nodes = g.num_nodes ∧
    (contract_node g nd).1.node_order = g.node_order ∧
    (contract_node g nd).1.adj_out.length = g.adj_out.length ∧
    (contract_node g nd).1.adj_in.length = g.adj_in.length := by
  set g1 : CHGraph := setContracted g nd true with hg1
  set ins : List Edge := (inEdges g1 nd).filter (fun e => !contractedAt g1 e.target) with hixs
  set outs : List Edge := (outEdges g1 nd).filter (fun e => !contractedAt g1 e.target) with hoxs
  set sw : Bool := decide (500 < ins.length * outs.length) with hsw
  have hdef : contract_node g nd = contractOuter nd sw outs ins g1 0 := rfl
  obtain ⟨_, hb, hc, hd, he_, hf, hg2, _, _⟩ :=
    contractOuter_spec nd sw outs ins g1 0 (by omega)
  rw [hdef]
  exact ⟨hf, he_, hb, hg2, hc, hd⟩

theorem getD_replicate {α : Type} (n x : Nat) (d : α) :
    (List.replicate n d).getD x d = d := by
  by_cases hx : x < n
  · rw [List.getD_eq_getElem?_getD, List.getElem?_eq_getElem (by simpa using hx)]
    simp [List.getElem_replicate]
  · rw [List.getD_eq_getElem?_getD, List.getElem?_eq_none (by simpa using Nat.le_of_not_lt hx)]
    rfl

theorem buildGo_rank_spec :
    ∀ (order : List Nat) (g : CHGraph) (r : Nat),
      g.rank.length = g.num_nodes → g.contracted.length = g.num_nodes →
      (∀ x ∈ order, x < g.num_nodes) → order.Nodup →
      (buildGo order g r).num_nodes = g.num_nodes ∧
      (∀ x, x ∉ order →
        rankAt (buildGo order g r) x = rankAt g x ∧
        contractedAt (buildGo order g r) x = contractedAt g x) ∧
      (∀ i (hi : i < order.length),
        rankAt (buildGo order g r) order[i] = ((r + i : Nat) : Int) ∧
        contractedAt (buildGo order g r) order[i] = true) := by
  intro order
  induction order with
  | nil =>
    intro g r _ _ _ _
    exact ⟨rfl, fun x _ => ⟨rfl, rfl⟩, fun i hi => absurd hi (by simp)⟩
  | cons nd rest ih =>
    intro g r hrl hcl hrange hnodup
    obtain ⟨hndrest, hrestnodup⟩ := List.nodup_cons.mp hnodup
    have hnd : nd < g.num_nodes := hrange nd (by simp)
    have hred : buildGo (nd :: rest) g r
        = buildGo rest (contract_node (setRankNat g nd (r : Int)) nd).1 (r + 1) := rfl
    obtain ⟨hf1, hf2, hf3, _, _, _⟩ := contract_node_fields (setRankNat g nd (r : Int)) nd
    set g2 : CHGraph := (contract_node (setRankNat g nd (r : Int)) nd).1 with hg2
    have hg2rank : g2.rank = g.rank.set nd (r : Int) := by rw [hf1]; rfl
    have hg2con : g2.contracted = g.contracted.set nd true := by rw [hf2]; rfl
    have hg2n : g2.num_nodes = g.num_nodes := by rw [hf3]; rfl
    have hg2rl : g2.rank.length = g2.num_nodes := by
      rw [hg2rank, hg2n, List.length_set]; exact hrl
    have hg2cl : g2.contracted.length = g2.num_nodes := by
      rw [hg2con, hg2n, List.length_set]; exact hcl
    have hrange2 : ∀ x ∈ rest, x < g2.num_nodes := by
      intro x hx; rw [hg2n]; exact hrange x (by simp [hx])
    obtain ⟨ihn, ihold, ihpos⟩ := ih g2 (r + 1) hg2rl hg2cl hrange2 hrestnodup
    have hrank2At : ∀ x, x ≠ nd → rankAt g2 x = rankAt g x := by
      intro x hx
      unfold rankAt
      rw [hg2rank, getD_set_ne _ _ _ _ _ (fun hh => hx hh.symm)]
    have hcon2At : ∀ x, x ≠ nd → contractedAt g2 x = contractedAt g x := by
      intro x hx
      unfold contractedAt
      rw [hg2con, getD_set_ne _ _ _ _ _ (fun hh => hx hh.symm)]
    have hrank2nd : rankAt g2 nd = (r : Int) := by
      unfold rankAt
      rw [hg2rank, getD_set_self _ _ _ _ (by rw [hrl]; exact hnd)]
    have hcon2nd : contractedAt g2 nd = true := by
      unfold contractedAt
      rw [hg2con, getD_set_self _ _ _ _ (by rw [hcl]; exact hnd)]
    rw [hred]
    refine ⟨by rw [ihn, hg2n], ?_, ?_⟩
    · intro x hx
      have hx1 : x ≠ nd := fun hh => hx (by simp [hh])
      have hx2 : x ∉ rest := fun hh => hx (by simp [hh])
      obtain ⟨o1, o2⟩ := ihold x hx2
      exact ⟨by rw [o1, hrank2At x hx1], by rw [o2, hcon2At x hx1]⟩
    · intro i hi
      cases i with
      | zero =>
        have hget : (nd :: rest)[0] = nd := rfl
        rw [hget]
        obtain ⟨o1, o2⟩ := ihold nd hndrest
        exact ⟨by rw [o1, hrank2nd]; norm_num, by rw [o2, hcon2nd]⟩
      | succ j =>
        have hj : j < rest.length := by simpa using hi
        have hget : (nd :: rest)[j + 1] = rest[j] := rfl
        rw [hget]
        obtain ⟨p1, p2⟩ := ihpos j hj
        refine ⟨?_, p2⟩
        rw [p1]
        congr 1
        omega

end CHGraph

open CHGraph in
/-- C6: starting from a fresh store (all ranks `-1`, nothing contracted),
`build_ch(order)` with pairwise-distinct in-range nodes assigns consecutive
ranks `0, 1, 2, …` to the nodes in ordering position order, marks exactly
those nodes contracted, leaves every other node at rank `-1` and
uncontracted, and the ranks over the ordering form the permutation
`0 … len(order)-1`. -/
theorem build_ch_rank_assignment (g : CHGraph) (n : Nat) (order : List Nat)
    (hn : g.num_nodes = n) (hrank : g.rank = List.replicate n (-1))
    (hcon : g.contracted = List.replicate n false)
    (hrange : ∀ x ∈ order, x < n) (hnodup : order.Nodup) :
    ∃ gF, build_ch g order = some gF ∧
      (∀ i (hi : i < order.length),
        rankAt gF order[i] = (i : Int) ∧ contractedAt gF order[i] = true) ∧
      (∀ x, x < n → x ∉ order → rankAt gF x = -1 ∧ contractedAt gF x = false) ∧
      order.map (fun x => rankAt gF x) = (List.range order.length).map Int.ofNat := by
  have hall : order.all (fun x => decide (x < g.num_nodes)) = true := by
    rw [List.all_eq_true]
    intro x hx
    rw [decide_eq_true_eq, hn]
    exact hrange x hx
  have hdef : build_ch g order = some (buildGo order { g with node_order := order } 0) := by
    unfold build_ch
    rw [if_pos hall]
  set g0 : CHGraph := { g with node_order := order } with hG0
  have hg0rank : g0.rank = List.replicate n (-1) := hrank
  have hg0con : g0.contracted = List.replicate n false := hcon
  have hg0n : g0.num_nodes = n := hn
  obtain ⟨_, hold, hpos⟩ := buildGo_rank_spec order g0 0
    (by rw [hg0rank, hg0n, List.length_replicate])
    (by rw [hg0con, hg0n, List.length_replicate])
    (by intro x hx; rw [hg0n]; exact hrange x hx) hnodup
  refine ⟨buildGo order g0 0, hdef, ?_, ?_, ?_⟩
  · intro i hi
    obtain ⟨p1, p2⟩ := hpos i hi
    exact ⟨by rw [p1]; norm_num, p2⟩
  · intro x _ hx
    obtain ⟨o1, o2⟩ := hold x hx
    constructor
    · rw [o1]
      unfold rankAt
      rw [hg0rank, getD_replicate]
    · rw [o2]
      unfold contractedAt
      rw [hg0con]
      by_cases hxn : x < n
      · rw [List.getD_eq_getElem?_getD, List.getElem?_eq_getElem (by simpa using hxn)]
        simp [List.getElem_replicate]
      · rw [List.getD_eq_getElem?_getD,
          List.getElem?_eq_none (by simpa using Nat.le_of_not_lt hxn)]
        rfl
  · apply List.ext_getElem
    · simp
    · intro i h1 h2
      rw [List.getElem_map, List.getElem_map, List.getElem_range]
      obtain ⟨p1, _⟩ := hpos i (by simpa using h1)
      rw [p1]
      simp

open CHGraph in
/-- Witness for C6 at the concrete 3-node graph with ordering `[1, 0]`. -/
theorem build_ch_rank_assignment_witness :
    ∃ gF, CHGraph.build_ch (CHGraph.new 3) [1, 0] = some gF ∧
      (∀ i (hi : i < ([1, 0] : List Nat).length),
        rankAt gF ([1, 0] : List Nat)[i] = (i : Int) ∧
          contractedAt gF ([1, 0] : List Nat)[i] = true) ∧
      (∀ x, x < 3 → x ∉ ([1, 0] : List Nat) → rankAt gF x = -1 ∧ contractedAt gF x = false) ∧
      ([1, 0] : List Nat).map (fun x => rankAt gF x)
        = (List.range ([1, 0] : List Nat).length).map Int.ofNat :=
  build_ch_rank_assignment (CHGraph.new 3) 3 [1, 0] rfl rfl rfl
    (by decide) (by decide)

/-! ### Claim C5: adjacency symmetry -/

namespace CHGraph

/-- Shape lemma for the paired `push_back` of the mutators: effect on
`adj_out`. -/
theorem outEdges_pushPair (g : CHGraph) (a b : Nat) (eo ei : Edge) (x : Nat) :
    outEdges (pushIn (pushOut g a eo) b ei) x
      = outEdges g x ++ (if x = a ∧ a < g.adj_out.length then [eo] else []) := by
  have h1 : outEdges (pushIn (pushOut g a eo) b ei) x = outEdges (pushOut g a eo) x := rfl
  rw [h1]
  by_cases hx : x = a
  · subst hx
    by_cases hl : x < g.adj_out.length
    · rw [outEdges_pushOut_self g x eo hl, if_pos ⟨rfl, hl⟩]
    · rw [if_neg (fun hc => hl hc.2), List.append_nil]
      have h2 := outEdges_pushOut_oob g x eo (Nat.le_of_not_lt hl)
      simp [outEdges, h2]
  · rw [outEdges_pushOut_ne g a x eo (fun hh => hx hh.symm),
      if_neg (fun hc => hx hc.1), List.append_nil]

/-- Shape lemma for the paired `push_back` of the mutators: effect on
`adj_in`. -/
theorem inEdges_pushPair (g : CHGraph) (a b : Nat) (eo ei : Edge) (x : Nat) :
    inEdges (pushIn (pushOut g a eo) b ei) x
      = inEdges g x ++ (if x = b ∧ b < g.adj_in.length then [ei] else []) := by
  by_cases hx : x = b
  · subst hx
    by_cases hl : x < g.adj_in.length
    · have hstep := inEdges_pushIn_self (pushOut g a eo) x ei hl
      rw [hstep, if_pos ⟨rfl, hl⟩]
      rfl
    · have h2 := inEdges_pushIn_oob (pushOut g a eo) x ei (Nat.le_of_not_lt hl)
      rw [if_neg (fun hc => hl hc.2), List.append_nil]
      show (pushIn _ x _).adj_in.getD x [] = g.adj_in.getD x []
      rw [h2]
      rfl
  · have hstep := inEdges_pushIn_ne (pushOut g a eo) b x ei (fun hh => hx hh.symm)
    rw [hstep, if_neg (fun hc => hx hc.1), List.append_nil]
    rfl

theorem totalOut_pushPair (g : CHGraph) (a b : Nat) (eo ei : Edge)
    (h : a < g.adj_out.length) :
    totalOut (pushIn (pushOut g a eo) b ei) = totalOut g + 1 := by
  have hs := sum_map_length_set g.adj_out a (g.adj_out.getD a [] ++ [eo]) h
  simp only [List.length_append, List.length_singleton] at hs
  unfold totalOut
  rw [show (pushIn (pushOut g a eo) b ei).adj_out
      = g.adj_out.set a (g.adj_out.getD a [] ++ [eo]) from rfl]
  omega

theorem totalIn_pushPair (g : CHGraph) (a b : Nat) (eo ei : Edge)
    (h : b < g.adj_in.length) :
    totalIn (pushIn (pushOut g a eo) b ei) = totalIn g + 1 := by
  have hs := sum_map_length_set g.adj_in b (g.adj_in.getD b [] ++ [ei]) h
  simp only [List.length_append, List.length_singleton] at hs
  unfold totalIn
  rw [show (pushIn (pushOut g a eo) b ei).adj_in
      = g.adj_in.set b (g.adj_in.getD b [] ++ [ei]) from rfl]
  omega

/-- Invariant of all reachable graph states: adjacency sequences sized to
`num_nodes`, in-range targets, and count-symmetric adjacency. -/
def AdjInv (g : CHGraph) : Prop :=
  g.adj_out.length = g.num_nodes ∧ g.adj_in.length = g.num_nodes ∧
  (∀ l ∈ g.adj_out, ∀ e ∈ l, e.target < g.num_nodes) ∧
  (∀ l ∈ g.adj_in, ∀ e ∈ l, e.target < g.num_nodes) ∧
  (∀ (u v : Nat) (w : Rat) (sc : Bool) (via : Int),
    (outEdges g u).count { target := v, weight := w, is_shortcut := sc, via_node := via }
      = (inEdges g v).count { target := u, weight := w, is_shortcut := sc, via_node := via })

theorem AdjInv_new (n : Nat) : AdjInv (new n) := by
  refine ⟨by simp [new], by simp [new], ?_, ?_, ?_⟩
  · intro l hl e he
    rw [List.eq_of_mem_replicate hl] at he
    simp at he
  · intro l hl e he
    rw [List.eq_of_mem_replicate hl] at he
    simp at he
  · intro u v w sc via
    show ((List.replicate n ([] : List Edge)).getD u []).count _
        = ((List.replicate n ([] : List Edge)).getD v []).count _
    rw [getD_replicate, getD_replicate]
    simp

theorem AdjInv_pushPair {g : CHGraph} (hInv : AdjInv g) (a b : Nat) (w : Rat)
    (sc : Bool) (via : Int) (ha : a < g.num_nodes) (hb : b < g.num_nodes) :
    AdjInv (pushIn
      (pushOut g a { target := b, weight := w, is_shortcut := sc, via_node := via })
      b { target := a, weight := w, is_shortcut := sc, via_node := via }) ∧
    (pushIn (pushOut g a { target := b, weight := w, is_shortcut := sc, via_node := via })
      b { target := a, weight := w, is_shortcut := sc, via_node := via }).num_nodes
        = g.num_nodes := by
  obtain ⟨hlo, hli, hto, hti, hsym⟩ := hInv
  have hao : a < g.adj_out.length := by omega
  have hbi : b < g.adj_in.length := by omega
  refine ⟨⟨?_, ?_, ?_, ?_, ?_⟩, rfl⟩
  · show (g.adj_out.set a _).length = g.num_nodes
    rw [List.length_set]; exact hlo
  · show (g.adj_in.set b _).length = g.num_nodes
    rw [List.length_set]; exact hli
  · intro l hl e he
    rcases List.mem_or_eq_of_mem_set hl with hmem | heq
    · exact hto l hmem e he
    · subst heq
      rcases List.mem_append.1 he with hmem | hmem
      · exact outEdges_target_lt g hto a e hmem
      · simp only [List.mem_singleton] at hmem
        subst hmem
        exact hb
  · intro l hl e he
    rcases List.mem_or_eq_of_mem_set hl with hmem | heq
    · exact hti l hmem e he
    · subst heq
      rcases List.mem_append.1 he with hmem | hmem
      · exact inEdges_target_lt g hti b e hmem
      · simp only [List.mem_singleton] at hmem
        subst hmem
        exact ha
  · intro u v w0 sc0 via0
    rw [outEdges_pushPair, inEdges_pushPair, List.count_append, List.count_append,
      hsym u v w0 sc0 via0]
    congr 1
    by_cases hu : u = a
    · by_cases hv : v = b
      · subst hu; subst hv
        rw [if_pos ⟨rfl, hao⟩, if_pos ⟨rfl, hbi⟩]
        by_cases hw : w = w0
        · by_cases hsc : sc = sc0
          · by_cases hvia : via = via0
            · subst hw; subst hsc; subst hvia; simp
            · simp [List.count_singleton', beq_iff_eq, Edge.mk.injEq, hvia]
          · simp [List.count_singleton', beq_iff_eq, Edge.mk.injEq, hsc]
        · simp [List.count_singleton', beq_iff_eq, Edge.mk.injEq, hw]
      · subst hu
        rw [if_pos ⟨rfl, hao⟩, if_neg (fun hc => hv hc.1)]
        simp [List.count_singleton', beq_iff_eq, Edge.mk.injEq, hv]
    · by_cases hv : v = b
      · subst hv
        rw [if_neg (fun hc => hu hc.1), if_pos ⟨rfl, hbi⟩]
        simp [List.count_singleton', beq_iff_eq, Edge.mk.injEq, hu,
          fun hh : a = u => hu hh.symm]
      · rw [if_neg (fun hc => hu hc.1), if_neg (fun hc => hv hc.1)]
        simp

end CHGraph

namespace CHGraph

theorem AdjInv_insertShortcut {g : CHGraph} (hInv : AdjInv g) (u w : Nat) (total : Rat)
    (nd : Nat) (hu : u < g.num_nodes) (hw : w < g.num_nodes) :
    AdjInv (insertShortcut g u w total nd) ∧
    (insertShortcut g u w total nd).num_nodes = g.num_nodes :=
  AdjInv_pushPair hInv u w total true (nd : Int) hu hw

theorem contractInner_AdjInv (nd : Nat) (skipW : Bool) (u : Nat) (dUV : Rat)
    (outs : List Edge) : ∀ (g : CHGraph) (cnt : Nat), AdjInv g → u < g.num_nodes →
    (∀ e ∈ outs, e.target < g.num_nodes) →
    AdjInv (contractInner nd skipW u dUV outs g cnt).1 ∧
    (contractInner nd skipW u dUV outs g cnt).1.num_nodes = g.num_nodes := by
  induction outs with
  | nil => intro g cnt hInv _ _; exact ⟨hInv, rfl⟩
  | cons oe rest ih =>
    intro g cnt hInv hu houts
    by_cases h1 : u = oe.target
    · rw [show contractInner nd skipW u dUV (oe :: rest) g cnt
          = contractInner nd skipW u dUV rest g cnt from by rw [contractInner, if_pos h1]]
      exact ih g cnt hInv hu (fun e he => houts e (by simp [he]))
    · by_cases h2 : 100 ≤ cnt
      · rw [show contractInner nd skipW u dUV (oe :: rest) g cnt = (g, cnt, true) from by
          rw [contractInner, if_neg h1, if_pos h2]]
        exact ⟨hInv, rfl⟩
      · by_cases h3 : witness_search g u oe.target (dUV + oe.weight) (nd : Int)
            (if skipW then 1 else 3) = true
        · rw [show contractInner nd skipW u dUV (oe :: rest) g cnt
              = contractInner nd skipW u dUV rest g cnt from by
            rw [contractInner, if_neg h1, if_neg h2]
            dsimp only
            rw [h3]
            simp]
          exact ih g cnt hInv hu (fun e he => houts e (by simp [he]))
        · rw [show contractInner nd skipW u dUV (oe :: rest) g cnt
              = contractInner nd skipW u dUV rest
                  (insertShortcut g u oe.target (dUV + oe.weight) nd) (cnt + 1) from by
            rw [contractInner, if_neg h1, if_neg h2]
            simp only [Bool.not_eq_true] at h3
            dsimp only
            rw [h3]
            simp]
          obtain ⟨hInv2, hn2⟩ := AdjInv_insertShortcut hInv u oe.target (dUV + oe.weight) nd
            hu (houts oe (by simp))
          obtain ⟨ha, hb⟩ := ih (insertShortcut g u oe.target (dUV + oe.weight) nd) (cnt + 1)
            hInv2 (by rw [hn2]; exact hu)
            (fun e he => by rw [hn2]; exact houts e (by simp [he]))
          exact ⟨ha, by rw [hb, hn2]⟩

theorem contractOuter_AdjInv (nd : Nat) (skipW : Bool) (outs : List Edge) :
    ∀ (ins : List Edge) (g : CHGraph) (cnt : Nat), AdjInv g →
    (∀ e ∈ ins, e.target < g.num_nodes) → (∀ e ∈ outs, e.target < g.num_nodes) →
    AdjInv (contractOuter nd skipW outs ins g cnt).1 ∧
    (contractOuter nd skipW outs ins g cnt).1.num_nodes = g.num_nodes := by
  intro ins
  induction ins with
  | nil => intro g cnt hInv _ _; exact ⟨hInv, rfl⟩
  | cons ie rest ih =>
    intro g cnt hInv hins houts
    obtain ⟨ha, hb⟩ := contractInner_AdjInv nd skipW ie.target ie.weight outs g cnt hInv
      (hins ie (by simp)) houts
    rcases hsplit : contractInner nd skipW ie.target ie.weight outs g cnt with ⟨g1, cnt1, stop⟩
    rw [hsplit] at ha hb
    dsimp only at ha hb
    have hred : contractOuter nd skipW outs (ie :: rest) g cnt
        = if stop then (g1, cnt1) else contractOuter nd skipW outs rest g1 cnt1 := by
      rw [contractOuter, hsplit]
      cases stop <;> simp
    cases stop with
    | true =>
      rw [hred, if_pos rfl]
      exact ⟨ha, hb⟩
    | false =>
      rw [hred, if_neg (by simp)]
      obtain ⟨hc, hd⟩ := ih g1 cnt1 ha
        (fun e he => by rw [hb]; exact hins e (by simp [he]))
        (fun e he => by rw [hb]; exact houts e he)
      exact ⟨hc, by rw [hd, hb]⟩

theorem AdjInv_setContracted {g : CHGraph} (hInv : AdjInv g) (nd : Nat) (b : Bool) :
    AdjInv (setContracted g nd b) := hInv

theorem contract_node_AdjInv {g : CHGraph} (hInv : AdjInv g) (nd : Nat) :
    AdjInv (contract_node g nd).1 ∧ (contract_node g nd).1.num_nodes = g.num_nodes := by
  set g1 : CHGraph := setContracted g nd true with hg1
  set ins : List Edge := (inEdges g1 nd).filter (fun e => !contractedAt g1 e.target) with hixs
  set outs : List Edge := (outEdges g1 nd).filter (fun e => !contractedAt g1 e.target) with hoxs
  set sw : Bool := decide (500 < ins.length * outs.length) with hsw
  have hdef : contract_node g nd = contractOuter nd sw outs ins g1 0 := rfl
  have hInv1 : AdjInv g1 := hInv
  have h1 : ∀ e ∈ ins, e.target < g1.num_nodes := by
    intro e he
    exact inEdges_target_lt g1 hInv1.2.2.2.1 nd e (List.mem_of_mem_filter he)
  have h2 : ∀ e ∈ outs, e.target < g1.num_nodes := by
    intro e he
    exact outEdges_target_lt g1 hInv1.2.2.1 nd e (List.mem_of_mem_filter he)
  rw [hdef]
  exact contractOuter_AdjInv nd sw outs ins g1 0 hInv1 h1 h2

theorem buildGo_AdjInv : ∀ (order : List Nat) (g : CHGraph), AdjInv g →
    ∀ r, AdjInv (buildGo order g r) := by
  intro order
  induction order with
  | nil => intro g hInv r; exact hInv
  | cons nd rest ih =>
    intro g hInv r
    have hInvR : AdjInv (setRankNat g nd (r : Int)) := hInv
    obtain ⟨ha, _⟩ := contract_node_AdjInv hInvR nd
    exact ih _ ha (r + 1)

/-- A host-visible mutation: one of the exported graph-building calls. -/
inductive GOp where
  | addE (u v : Int) (w : Rat)
  | addCh (u v : Int) (w : Rat) (sc : Bool) (via : Int)
  | build (order : List Nat)

/-- Run one mutation. -/
def runOp (g : CHGraph) : GOp → Option CHGraph
  | .addE u v w => add_edge g u v w
  | .addCh u v w sc via => add_ch_edge g u v w sc via
  | .build order => build_ch g order

/-- Run a sequence of mutations from a starting state. -/
def runOps : CHGraph → List GOp → Option CHGraph
  | g, [] => some g
  | g, op :: rest => (runOp g op).bind fun g1 => runOps g1 rest

theorem add_edge_some {g g' : CHGraph} {u v : Int} {w : Rat}
    (h : add_edge g u v w = some g') :
    (0 ≤ u ∧ u < (g.num_nodes : Int)) ∧ (0 ≤ v ∧ v < (g.num_nodes : Int)) ∧
    g' = pushIn
      (pushOut g u.toNat { target := v.toNat, weight := w, is_shortcut := false, via_node := -1 })
      v.toNat { target := u.toNat, weight := w, is_shortcut := false, via_node := -1 } := by
  unfold add_edge at h
  by_cases hc : (inRangeB g u && inRangeB g v) = true
  · rw [if_pos hc] at h
    simp only [inRangeB, Bool.and_eq_true, decide_eq_true_eq] at hc
    exact ⟨⟨hc.1.1, hc.1.2⟩, ⟨hc.2.1, hc.2.2⟩, (Option.some.injEq _ _ ▸ h).symm⟩
  · rw [if_neg hc] at h
    exact absurd h (by simp)

theorem add_ch_edge_some {g g' : CHGraph} {u v : Int} {w : Rat} {sc : Bool} {via : Int}
    (h : add_ch_edge g u v w sc via = some g') :
    (0 ≤ u ∧ u < (g.num_nodes : Int)) ∧ (0 ≤ v ∧ v < (g.num_nodes : Int)) ∧
    g' = pushIn
      (pushOut g u.toNat { target := v.toNat, weight := w, is_shortcut := sc, via_node := via })
      v.toNat { target := u.toNat, weight := w, is_shortcut := sc, via_node := via } := by
  unfold add_ch_edge at h
  by_cases hc : (inRangeB g u && inRangeB g v) = true
  · rw [if_pos hc] at h
    simp only [inRangeB, Bool.and_eq_true, decide_eq_true_eq] at hc
    exact ⟨⟨hc.1.1, hc.1.2⟩, ⟨hc.2.1, hc.2.2⟩, (Option.some.injEq _ _ ▸ h).symm⟩
  · rw [if_neg hc] at h
    exact absurd h (by simp)

theorem runOp_AdjInv {g g' : CHGraph} (hInv : AdjInv g) (op : GOp)
    (h : runOp g op = some g') : AdjInv g' := by
  cases op with
  | addE u v w =>
    obtain ⟨⟨hu0, hu1⟩, ⟨hv0, hv1⟩, hg⟩ := add_edge_some h
    subst hg
    exact (AdjInv_pushPair hInv u.toNat v.toNat w false (-1) (by omega) (by omega)).1
  | addCh u v w sc via =>
    obtain ⟨⟨hu0, hu1⟩, ⟨hv0, hv1⟩, hg⟩ := add_ch_edge_some h
    subst hg
    exact (AdjInv_pushPair hInv u.toNat v.toNat w sc via (by omega) (by omega)).1
  | build order =>
    simp only [runOp] at h
    unfold build_ch at h
    by_cases hc : (order.all fun x => decide (x < g.num_nodes)) = true
    · rw [if_pos hc] at h
      have hg := (Option.some.injEq _ _ ▸ h).symm
      subst hg
      exact buildGo_AdjInv order { g with node_order := order } hInv 0
    · rw [if_neg hc] at h
      exact absurd h (by simp)

theorem runOps_AdjInv : ∀ (ops : List GOp) (g g' : CHGraph), AdjInv g →
    runOps g ops = some g' → AdjInv g' := by
  intro ops
  induction ops with
  | nil =>
    intro g g' hInv h
    cases h
    exact hInv
  | cons op rest ih =>
    intro g g' hInv h
    unfold runOps at h
    rcases hop : runOp g op with _ | g1
    · rw [hop] at h; exact absurd h (by simp)
    · rw [hop] at h
      exact ih g1 g' (runOp_AdjInv hInv op hop) h

end CHGraph

open CHGraph in
/-- C5: starting from `new n`, after any successful sequence of `add_edge`,
`add_ch_edge` and `build_ch` operations (success encodes the in-range
condition), the adjacency structure is count-symmetric: for every `u, v` and
every attribute triple, `out_edges[u]` holds exactly as many records
`(v, w, sc, via)` as `in_edges[v]` holds records `(u, w, sc, via)` (the
in-entry stores the source `u` in its `target` field).  Moreover each single
edge insertion grows each side by exactly one record. -/
theorem adjacency_symmetry_of_ops (n : Nat) (ops : List GOp) (g : CHGraph)
    (hrun : runOps (CHGraph.new n) ops = some g) :
    (∀ (u v : Nat) (w : Rat) (sc : Bool) (via : Int),
      (outEdges g u).count { target := v, weight := w, is_shortcut := sc, via_node := via }
        = (inEdges g v).count { target := u, weight := w, is_shortcut := sc, via_node := via }) ∧
    (∀ (u v : Int) (w : Rat) (g' : CHGraph), add_edge g u v w = some g' →
      totalOut g' = totalOut g + 1 ∧ totalIn g' = totalIn g + 1) ∧
    (∀ (u v : Int) (w : Rat) (sc : Bool) (via : Int) (g' : CHGraph),
      add_ch_edge g u v w sc via = some g' →
      totalOut g' = totalOut g + 1 ∧ totalIn g' = totalIn g + 1) := by
  have hInv : AdjInv g := runOps_AdjInv ops (CHGraph.new n) g (AdjInv_new n) hrun
  obtain ⟨hlo, hli, _, _, hsym⟩ := hInv
  refine ⟨hsym, ?_, ?_⟩
  · intro u v w g' h
    obtain ⟨⟨hu0, hu1⟩, ⟨hv0, hv1⟩, hg⟩ := add_edge_some h
    subst hg
    exact ⟨totalOut_pushPair g u.toNat v.toNat _ _ (by omega),
      totalIn_pushPair g u.toNat v.toNat _ _ (by omega)⟩
  · intro u v w sc via g' h
    obtain ⟨⟨hu0, hu1⟩, ⟨hv0, hv1⟩, hg⟩ := add_ch_edge_some h
    subst hg
    exact ⟨totalOut_pushPair g u.toNat v.toNat _ _ (by omega),
      totalIn_pushPair g u.toNat v.toNat _ _ (by omega)⟩

/-- The graph reached by `runOps (new 2) [addE 0 1 5]`, written out. -/
def c5wGraph : CHGraph :=
  { num_nodes := 2
    adj_out := [[{ target := 1, weight := 5, is_shortcut := false, via_node := -1 }], []]
    adj_in := [[], [{ target := 0, weight := 5, is_shortcut := false, via_node := -1 }]]
    contracted := [false, false]
    rank := [-1, -1]
    node_order := [] }

open CHGraph in
/-- Witness for C5 at the concrete sequence `[add_edge 0 1 5]` on `new 2`. -/
theorem adjacency_symmetry_of_ops_witness :
    (∀ (u v : Nat) (w : Rat) (sc : Bool) (via : Int),
      (outEdges c5wGraph u).count { target := v, weight := w, is_shortcut := sc, via_node := via }
        = (inEdges c5wGraph v).count
            { target := u, weight := w, is_shortcut := sc, via_node := via }) ∧
    (∀ (u v : Int) (w : Rat) (g' : CHGraph), add_edge c5wGraph u v w = some g' →
      totalOut g' = totalOut c5wGraph + 1 ∧ totalIn g' = totalIn c5wGraph + 1) ∧
    (∀ (u v : Int) (w : Rat) (sc : Bool) (via : Int) (g' : CHGraph),
      add_ch_edge c5wGraph u v w sc via = some g' →
      totalOut g' = totalOut c5wGraph + 1 ∧ totalIn g' = totalIn c5wGraph + 1) :=
  adjacency_symmetry_of_ops 2 [GOp.addE 0 1 5] c5wGraph (by decide)

/-! ### Claim C4: the empty-path sentinel of `query` -/

namespace CHGraph

theorem unpackF_extends (g : CHGraph) :
    ∀ (fuel : Nat) (u v : Int) (path q : List Int),
      unpackF g fuel u v path = some q → ∃ ext, q = path ++ ext := by
  intro fuel
  induction fuel with
  | zero => intro u v path q h; exact absurd h (by simp [unpackF])
  | succ f ih =>
    intro u v path q h
    unfold unpackF at h
    rcases hfind : (outEdgesI g u).find? (fun e => (e.target : Int) == v && e.is_shortcut
        && e.via_node != -1) with _ | e
    · rw [hfind] at h
      simp only [Option.some.injEq] at h
      exact ⟨[v], h.symm⟩
    · rw [hfind] at h
      dsimp only at h
      rcases h1 : unpackF g f u e.via_node path with _ | p1
      · rw [h1] at h; exact absurd h (by simp)
      · rw [h1] at h
        simp only [Option.some_bind] at h
        obtain ⟨e1, he1⟩ := ih u e.via_node path p1 h1
        obtain ⟨e2, he2⟩ := ih e.via_node v p1 q h
        exact ⟨e1 ++ e2, by rw [he2, he1, List.append_assoc]⟩

theorem unpackSeq_extends (g : CHGraph) (fuel : Nat) :
    ∀ (l : List Int) (c : Int) (path q : List Int),
      unpackSeq g fuel l c path = some q → ∃ ext, q = path ++ ext := by
  intro l
  induction l with
  | nil =>
    intro c path q h
    simp only [unpackSeq, Option.some.injEq] at h
    exact ⟨[], by rw [← h, List.append_nil]⟩
  | cons nxt rest ih =>
    intro c path q h
    unfold unpackSeq at h
    rcases h1 : unpackF g fuel c nxt path with _ | p1
    · rw [h1] at h; exact absurd h (by simp)
    · rw [h1] at h
      simp only [Option.some_bind] at h
      obtain ⟨e1, he1⟩ := unpackF_extends g fuel c nxt path p1 h1
      obtain ⟨e2, he2⟩ := ih nxt p1 q h
      exact ⟨e1 ++ e2, by rw [he2, he1, List.append_assoc]⟩

theorem bwdWalk_extends (g : CHGraph) (par : List Int) (dest : Int) (uf : Nat) :
    ∀ (fuel : Nat) (c : Int) (path q : List Int),
      bwdWalk g par dest uf fuel c path = some q → ∃ ext, q = path ++ ext := by
  intro fuel
  induction fuel with
  | zero => intro c path q h; exact absurd h (by simp [bwdWalk])
  | succ f ih =>
    intro c path q h
    unfold bwdWalk at h
    by_cases hc : c = dest
    · rw [if_pos hc] at h
      simp only [Option.some.injEq] at h
      exact ⟨[], by rw [← h, List.append_nil]⟩
    · rw [if_neg hc] at h
      by_cases hr : 0 ≤ c ∧ c < (par.length : Int)
      · rw [if_pos hr] at h
        dsimp only at h
        rcases h1 : unpackF g uf c (par.getD c.toNat (-1)) path with _ | p1
        · rw [h1] at h; exact absurd h (by simp)
        · rw [h1] at h
          simp only [Option.some_bind] at h
          obtain ⟨e1, he1⟩ := unpackF_extends g uf c _ path p1 h1
          obtain ⟨e2, he2⟩ := ih _ p1 q h
          exact ⟨e1 ++ e2, by rw [he2, he1, List.append_assoc]⟩
      · rw [if_neg hr] at h
        exact absurd h (by simp)

/-- The meeting-node outcome of the bidirectional search: `none` when the
loop fuel is exhausted, otherwise `some` of the final `meet_node`
(`none` inside modelling the `-1` sentinel). -/
def queryMeet (g : CHGraph) (origin dest : Int) : Option (Option Nat) :=
  (bidiLoop g (queryFuel g) (initQState g origin.toNat dest.toNat)).map QState.meet

end CHGraph

open CHGraph in
/-- C4: `query(s, t)` returns the empty path with distance `0.0` exactly
when an endpoint is out of `[0, N)` or the search finishes without recording
a meeting node; whenever it returns with a recorded meeting node, the path
is non-empty. -/
theorem query_empty_sentinel_iff (g : CHGraph) (s t : Int) :
    (query g s t = some ([], 0) ↔
      (inRangeB g s && inRangeB g t) = false ∨ queryMeet g s t = some none) ∧
    (∀ (p : List Int) (d : Rat), query g s t = some (p, d) →
      (inRangeB g s && inRangeB g t) = true → queryMeet g s t ≠ some none → p ≠ []) := by
  by_cases hb : (inRangeB g s && inRangeB g t) = true
  · have hq : query g s t
        = match bidiLoop g (queryFuel g) (initQState g s.toNat t.toNat) with
          | none => none
          | some st =>
            match st.meet with
            | none => some ([], 0)
            | some meet =>
              (traceUp st.fwd_parent s (g.num_nodes + 2) (meet : Int) []).bind fun upPath =>
              (unpackSeq g (unpFuel g) upPath.reverse s [s]).bind fun p1 =>
              (bwdWalk g st.bwd_parent t (unpFuel g) (g.num_nodes + 2) (meet : Int) p1).bind
                fun p2 => some (p2, st.mu.getD 0 / 1000) := by
      unfold query
      rw [hb]
      rfl
    rcases hl : bidiLoop g (queryFuel g) (initQState g s.toNat t.toNat) with _ | st
    · have hq2 : query g s t = none := by rw [hq, hl]
      have hm : queryMeet g s t = none := by unfold queryMeet; rw [hl]; rfl
      constructor
      · rw [hq2, hm]
        constructor
        · intro h; exact absurd h (by simp)
        · rintro (h | h)
          · rw [h] at hb; exact absurd hb (by simp)
          · exact absurd h (by simp)
      · intro p d h
        rw [hq2] at h
        exact absurd h (by simp)
    · have hm : queryMeet g s t = some st.meet := by unfold queryMeet; rw [hl]; rfl
      rcases hmeet : st.meet with _ | m
      · have hq2 : query g s t = some ([], 0) := by
          rw [hq]
          simp only [hl, hmeet]
        constructor
        · rw [hq2, hm, hmeet]
          constructor
          · intro _; exact Or.inr rfl
          · intro _; rfl
        · intro p d h _ hne
          rw [hm, hmeet] at hne
          exact absurd rfl hne
      · have hq2 : query g s t
            = (traceUp st.fwd_parent s (g.num_nodes + 2) (m : Int) []).bind fun upPath =>
              (unpackSeq g (unpFuel g) upPath.reverse s [s]).bind fun p1 =>
              (bwdWalk g st.bwd_parent t (unpFuel g) (g.num_nodes + 2) (m : Int) p1).bind
                fun p2 => some (p2, st.mu.getD 0 / 1000) := by
          rw [hq]
          simp only [hl, hmeet]
        have hkey : ∀ (p : List Int) (d : Rat), query g s t = some (p, d) → p ≠ [] := by
          intro p d h
          rw [hq2] at h
          rcases h1 : traceUp st.fwd_parent s (g.num_nodes + 2) (m : Int) [] with _ | up
          · rw [h1] at h; exact absurd h (by simp)
          · rw [h1] at h
            simp only [Option.some_bind] at h
            rcases h2 : unpackSeq g (unpFuel g) up.reverse s [s] with _ | p1
            · rw [h2] at h; exact absurd h (by simp)
            · rw [h2] at h
              simp only [Option.some_bind] at h
              rcases h3 : bwdWalk g st.bwd_parent t (unpFuel g) (g.num_nodes + 2) (m : Int) p1
                  with _ | p2
              · rw [h3] at h; exact absurd h (by simp)
              · rw [h3] at h
                simp only [Option.some_bind, Option.some.injEq, Prod.mk.injEq] at h
                obtain ⟨e1, he1⟩ := unpackSeq_extends g (unpFuel g) up.reverse s [s] p1 h2
                obtain ⟨e2, he2⟩ := bwdWalk_extends g st.bwd_parent t (unpFuel g) _ _ p1 p2 h3
                rw [← h.1, he2, he1]
                simp
        constructor
        · constructor
          · intro h
            exact absurd rfl (hkey [] 0 h)
          · rintro (h | h)
            · rw [h] at hb; exact absurd hb (by simp)
            · rw [hm, hmeet] at h
              exact absurd h (by simp)
        · intro p d h _ _
          exact hkey p d h
  · have hb2 : (inRangeB g s && inRangeB g t) = false := by
      simp only [Bool.not_eq_true] at hb
      exact hb
    have hq : query g s t = some ([], 0) := by
      unfold query
      rw [hb2]
      rfl
    constructor
    · rw [hq]
      exact ⟨fun _ => Or.inl hb2, fun _ => rfl⟩
    · intro p d _ hcon
      rw [hb2] at hcon
      exact absurd hcon (by simp)

/-- The graph reached by `add_edge(0,1,1000)` on `new 2` followed by
`build_ch([0,1])`, written out. -/
def c4wGraph : CHGraph :=
  { num_nodes := 2
    adj_out := [[{ target := 1, weight := 1000, is_shortcut := false, via_node := -1 }], []]
    adj_in := [[], [{ target := 0, weight := 1000, is_shortcut := false, via_node := -1 }]]
    contracted := [true, true]
    rank := [0, 1]
    node_order := [0, 1] }

open CHGraph in
/-- Witness for C4: on `c4wGraph`, `query(0,1)` finds a meeting node and
returns the non-empty path `[0, 1]`. -/
theorem query_empty_sentinel_iff_witness :
    (CHGraph.query c4wGraph 0 1 = some ([], 0) ↔
      (CHGraph.inRangeB c4wGraph 0 && CHGraph.inRangeB c4wGraph 1) = false ∨
        CHGraph.queryMeet c4wGraph 0 1 = some none) ∧
    ([0, 1] : List Int) ≠ [] :=
  ⟨(query_empty_sentinel_iff c4wGraph 0 1).1,
    (query_empty_sentinel_iff c4wGraph 0 1).2 [0, 1] 1
      (by with_unfolding_all decide) (by decide) (by with_unfolding_all decide)⟩

/-! ### Claim C9: termination of `unpack` after `build_ch` -/

namespace CHGraph

/-- Invariant of the shortcut structure during a build whose next rank is
`r`: contracted nodes carry ranks in `[0, r)`, and every shortcut records a
contracted via node whose rank lies strictly below the rank of each
endpoint that is itself contracted. -/
def SCInv (g : CHGraph) (r : Nat) : Prop :=
  (∀ x, contractedAt g x = true → 0 ≤ rankAt g x ∧ rankAt g x < (r : Int)) ∧
  (∀ x, ∀ e ∈ outEdges g x, e.is_shortcut = true →
    0 ≤ e.via_node ∧ contractedAt g e.via_node.toNat = true ∧
    (contractedAt g x = true → rankAt g e.via_node.toNat < rankAt g x) ∧
    (contractedAt g e.target = true → rankAt g e.via_node.toNat < rankAt g e.target))

theorem SCInv_mono {g : CHGraph} {r R : Nat} (h : SCInv g r) (hrR : r ≤ R) : SCInv g R :=
  ⟨fun x hx => ⟨(h.1 x hx).1, lt_of_lt_of_le (h.1 x hx).2 (by exact_mod_cast hrR)⟩, h.2⟩

theorem SCInv_insertShortcut {g : CHGraph} {R : Nat} (u w : Nat) (t : Rat) (nd : Nat)
    (hInv : SCInv g R)
    (hcu : contractedAt g u = false) (hcw : contractedAt g w = false)
    (hcnd : contractedAt g nd = true) :
    SCInv (insertShortcut g u w t nd) R := by
  obtain ⟨h1, h2⟩ := hInv
  obtain ⟨_, _, _, hcon, hrank, _⟩ := insertShortcut_fields g u w t nd
  have hcA : ∀ x, contractedAt (insertShortcut g u w t nd) x = contractedAt g x := by
    intro x; unfold contractedAt; rw [hcon]
  have hrA : ∀ x, rankAt (insertShortcut g u w t nd) x = rankAt g x := by
    intro x; unfold rankAt; rw [hrank]
  constructor
  · intro x hx
    rw [hrA]
    exact h1 x (by rw [← hcA x]; exact hx)
  · intro x e he hsc
    rw [insertShortcut_outEdges] at he
    rcases List.mem_append.1 he with hold | hnew
    · obtain ⟨a, b, c, d⟩ := h2 x e hold hsc
      refine ⟨a, by rw [hcA]; exact b, ?_, ?_⟩
      · intro hcx
        rw [hrA, hrA]
        exact c (by rw [← hcA]; exact hcx)
      · intro hct
        rw [hrA, hrA]
        exact d (by rw [← hcA]; exact hct)
    · by_cases hcond : x = u ∧ u < g.adj_out.length
      · rw [if_pos hcond] at hnew
        simp only [List.mem_singleton] at hnew
        subst hnew
        refine ⟨by positivity, ?_, ?_, ?_⟩
        · show contractedAt _ ((nd : Int)).toNat = true
          rw [hcA]
          simpa using hcnd
        · intro hcx
          rw [hcA, hcond.1] at hcx
          rw [hcu] at hcx
          exact absurd hcx (by simp)
        · intro hct
          show rankAt _ ((nd : Int)).toNat < rankAt _ _
          rw [hcA] at hct
          simp only at hct
          rw [hcw] at hct
          exact absurd hct (by simp)
      · rw [if_neg hcond] at hnew
        simp at hnew

theorem contractInner_SCInv (R : Nat) (nd : Nat) (skipW : Bool) (u : Nat) (dUV : Rat)
    (outs : List Edge) : ∀ (g : CHGraph) (cnt : Nat),
    SCInv g R → contractedAt g u = false →
    (∀ e ∈ outs, contractedAt g e.target = false) → contractedAt g nd = true →
    SCInv (contractInner nd skipW u dUV outs g cnt).1 R ∧
    (contractInner nd skipW u dUV outs g cnt).1.contracted = g.contracted ∧
    (contractInner nd skipW u dUV outs g cnt).1.rank = g.rank := by
  induction outs with
  | nil => intro g cnt hInv _ _ _; exact ⟨hInv, rfl, rfl⟩
  | cons oe rest ih =>
    intro g cnt hInv hcu houts hcnd
    by_cases h1 : u = oe.target
    · rw [show contractInner nd skipW u dUV (oe :: rest) g cnt
          = contractInner nd skipW u dUV rest g cnt from by rw [contractInner, if_pos h1]]
      exact ih g cnt hInv hcu (fun e he => houts e (by simp [he])) hcnd
    · by_cases h2 : 100 ≤ cnt
      · rw [show contractInner nd skipW u dUV (oe :: rest) g cnt = (g, cnt, true) from by
          rw [contractInner, if_neg h1, if_pos h2]]
        exact ⟨hInv, rfl, rfl⟩
      · by_cases h3 : witness_search g u oe.target (dUV + oe.weight) (nd : Int)
            (if skipW then 1 else 3) = true
        · rw [show contractInner nd skipW u dUV (oe :: rest) g cnt
              = contractInner nd skipW u dUV rest g cnt from by
            rw [contractInner, if_neg h1, if_neg h2]
            dsimp only
            rw [h3]
            simp]
          exact ih g cnt hInv hcu (fun e he => houts e (by simp [he])) hcnd
        · rw [show contractInner nd skipW u dUV (oe :: rest) g cnt
              = contractInner nd skipW u dUV rest
                  (insertShortcut g u oe.target (dUV + oe.weight) nd) (cnt + 1) from by
            rw [contractInner, if_neg h1, if_neg h2]
            simp only [Bool.not_eq_true] at h3
            dsimp only
            rw [h3]
            simp]
          have hInv2 := SCInv_insertShortcut u oe.target (dUV + oe.weight) nd hInv hcu
            (houts oe (by simp)) hcnd
          obtain ⟨_, _, _, hcon, hrank, _⟩ := insertShortcut_fields g u oe.target
            (dUV + oe.weight) nd
          have hcA : ∀ x, contractedAt (insertShortcut g u oe.target (dUV + oe.weight) nd) x
              = contractedAt g x := by
            intro x; unfold contractedAt; rw [hcon]
          obtain ⟨ha, hb, hc⟩ := ih (insertShortcut g u oe.target (dUV + oe.weight) nd)
            (cnt + 1) hInv2 (by rw [hcA]; exact hcu)
            (fun e he => by rw [hcA]; exact houts e (by simp [he]))
            (by rw [hcA]; exact hcnd)
          exact ⟨ha, by rw [hb, hcon], by rw [hc, hrank]⟩

theorem contractOuter_SCInv (R : Nat) (nd : Nat) (skipW : Bool) (outs : List Edge) :
    ∀ (ins : List Edge) (g : CHGraph) (cnt : Nat),
    SCInv g R → (∀ e ∈ ins, contractedAt g e.target = false) →
    (∀ e ∈ outs, contractedAt g e.target = false) → contractedAt g nd = true →
    SCInv (contractOuter nd skipW outs ins g cnt).1 R ∧
    (contractOuter nd skipW outs ins g cnt).1.contracted = g.contracted ∧
    (contractOuter nd skipW outs ins g cnt).1.rank = g.rank := by
  intro ins
  induction ins with
  | nil => intro g cnt hInv _ _ _; exact ⟨hInv, rfl, rfl⟩
  | cons ie rest ih =>
    intro g cnt hInv hins houts hcnd
    obtain ⟨ha, hb, hc⟩ := contractInner_SCInv R nd skipW ie.target ie.weight outs g cnt hInv
      (hins ie (by simp)) houts hcnd
    rcases hsplit : contractInner nd skipW ie.target ie.weight outs g cnt with ⟨g1, cnt1, stop⟩
    rw [hsplit] at ha hb hc
    dsimp only at ha hb hc
    have hcA : ∀ x, contractedAt g1 x = contractedAt g x := by
      intro x; unfold contractedAt; rw [hb]
    have hred : contractOuter nd skipW outs (ie :: rest) g cnt
        = if stop then (g1, cnt1) else contractOuter nd skipW outs rest g1 cnt1 := by
      rw [contractOuter, hsplit]
      cases stop <;> simp
    cases stop with
    | true =>
      rw [hred, if_pos rfl]
      exact ⟨ha, hb, hc⟩
    | false =>
      rw [hred, if_neg (by simp)]
      obtain ⟨hd, he_, hf⟩ := ih g1 cnt1 ha
        (fun e hee => by rw [hcA]; exact hins e (by simp [hee]))
        (fun e hee => by rw [hcA]; exact houts e hee)
        (by rw [hcA]; exact hcnd)
      exact ⟨hd, by rw [he_, hb], by rw [hf, hc]⟩

end CHGraph

namespace CHGraph

theorem buildStep_SCInv (g : CHGraph) (nd r : Nat)
    (hInv : SCInv g r) (hnc : contractedAt g nd = false)
    (hnd : nd < g.num_nodes) (hcl : g.contracted.length = g.num_nodes)
    (hrl : g.rank.length = g.num_nodes) :
    SCInv (contract_node (setRankNat g nd (r : Int)) nd).1 (r + 1) ∧
    (contract_node (setRankNat g nd (r : Int)) nd).1.contracted = g.contracted.set nd true ∧
    (contract_node (setRankNat g nd (r : Int)) nd).1.rank = g.rank.set nd (r : Int) ∧
    (contract_node (setRankNat g nd (r : Int)) nd).1.num_nodes = g.num_nodes := by
  have hndr : nd < g.rank.length := by omega
  have hndc : nd < g.contracted.length := by omega
  set gA : CHGraph := setRankNat g nd (r : Int) with hgA
  have hArank : ∀ x, x ≠ nd → rankAt gA x = rankAt g x := by
    intro x hx
    show (g.rank.set nd (r : Int)).getD x (-1) = g.rank.getD x (-1)
    exact getD_set_ne _ _ _ _ _ (fun hh => hx hh.symm)
  have hArnd : rankAt gA nd = (r : Int) := by
    show (g.rank.set nd (r : Int)).getD nd (-1) = (r : Int)
    exact getD_set_self _ _ _ _ hndr
  have hAcon : ∀ x, contractedAt gA x = contractedAt g x := fun x => rfl
  have hAout : ∀ x, outEdges gA x = outEdges g x := fun x => rfl
  have hInvA : SCInv gA (r + 1) := by
    constructor
    · intro x hx
      rw [hAcon] at hx
      by_cases hxnd : x = nd
      · subst hxnd
        rw [hnc] at hx
        exact absurd hx (by simp)
      · rw [hArank x hxnd]
        obtain ⟨a, b⟩ := hInv.1 x hx
        exact ⟨a, by push_cast; omega⟩
    · intro x e he hsc
      rw [hAout] at he
      obtain ⟨a, b, c, d⟩ := hInv.2 x e he hsc
      have hmnd : e.via_node.toNat ≠ nd := by
        intro hh
        rw [hh, hnc] at b
        exact absurd b (by simp)
      refine ⟨a, by rw [hAcon]; exact b, ?_, ?_⟩
      · intro hcx
        rw [hAcon] at hcx
        have hxnd : x ≠ nd := by
          intro hh
          rw [hh, hnc] at hcx
          exact absurd hcx (by simp)
        rw [hArank _ hmnd, hArank _ hxnd]
        exact c hcx
      · intro hct
        rw [hAcon] at hct
        have htnd : e.target ≠ nd := by
          intro hh
          rw [hh, hnc] at hct
          exact absurd hct (by simp)
        rw [hArank _ hmnd, hArank _ htnd]
        exact d hct
  set gB : CHGraph := setContracted gA nd true with hgB
  have hBcl : gA.contracted.length = g.contracted.length := rfl
  have hBcon : ∀ x, x ≠ nd → contractedAt gB x = contractedAt gA x := by
    intro x hx
    show (gA.contracted.set nd true).getD x false = gA.contracted.getD x false
    exact getD_set_ne _ _ _ _ _ (fun hh => hx hh.symm)
  have hBcnd : contractedAt gB nd = true := by
    show (gA.contracted.set nd true).getD nd false = true
    exact getD_set_self _ _ _ _ (by rw [hBcl]; exact hndc)
  have hBrank : ∀ x, rankAt gB x = rankAt gA x := fun x => rfl
  have hBout : ∀ x, outEdges gB x = outEdges gA x := fun x => rfl
  have hInvB : SCInv gB (r + 1) := by
    constructor
    · intro x hx
      by_cases hxnd : x = nd
      · subst hxnd
        rw [hBrank, hArnd]
        constructor
        · positivity
        · push_cast; omega
      · rw [hBcon x hxnd] at hx
        rw [hBrank]
        exact hInvA.1 x hx
    · intro x e he hsc
      rw [hBout] at he
      obtain ⟨a, b, c, d⟩ := hInvA.2 x e he hsc
      have hmnd : e.via_node.toNat ≠ nd := by
        intro hh
        rw [hh] at b
        rw [hAcon, hnc] at b
        exact absurd b (by simp)
      refine ⟨a, by rw [hBcon _ hmnd]; exact b, ?_, ?_⟩
      · intro hcx
        by_cases hxnd : x = nd
        · subst hxnd
          rw [hBrank, hBrank, hArnd, hArank _ hmnd]
          have hmc : contractedAt g e.via_node.toNat = true := by rw [← hAcon]; exact b
          exact (hInv.1 _ hmc).2
        · rw [hBcon _ hxnd] at hcx
          rw [hBrank, hBrank]
          exact c hcx
      · intro hct
        by_cases htnd : e.target = nd
        · rw [htnd, hBrank, hBrank, hArnd, hArank _ hmnd]
          have hmc : contractedAt g e.via_node.toNat = true := by rw [← hAcon]; exact b
          exact (hInv.1 _ hmc).2
        · rw [hBcon _ htnd] at hct
          rw [hBrank, hBrank]
          exact d hct
  set ins : List Edge := (inEdges gB nd).filter (fun e => !contractedAt gB e.target) with hixs
  set outs : List Edge := (outEdges gB nd).filter (fun e => !contractedAt gB e.target) with hoxs
  set sw : Bool := decide (500 < ins.length * outs.length) with hsw
  have hdef : contract_node gA nd = contractOuter nd sw outs ins gB 0 := rfl
  have hfin : ∀ e ∈ ins, contractedAt gB e.target = false := by
    intro e he
    have := List.of_mem_filter he
    simpa using this
  have hfout : ∀ e ∈ outs, contractedAt gB e.target = false := by
    intro e he
    have := List.of_mem_filter he
    simpa using this
  obtain ⟨hI, hC, hR⟩ := contractOuter_SCInv (r + 1) nd sw outs ins gB 0 hInvB hfin hfout hBcnd
  rw [hdef]
  obtain ⟨_, _, hnn, _, _, _⟩ := contract_node_fields gA nd
  refine ⟨hI, by rw [hC]; rfl, by rw [hR]; rfl, ?_⟩
  rw [show (contractOuter nd sw outs ins gB 0).1 = (contract_node gA nd).1 from by rw [hdef]]
  rw [hnn]
  rfl

theorem buildGo_SCInv : ∀ (order : List Nat) (g : CHGraph) (r : Nat),
    SCInv g r → (∀ x ∈ order, contractedAt g x = false) →
    (∀ x ∈ order, x < g.num_nodes) → order.Nodup →
    g.contracted.length = g.num_nodes → g.rank.length = g.num_nodes →
    SCInv (buildGo order g r) (r + order.length) := by
  intro order
  induction order with
  | nil => intro g r hInv _ _ _ _ _; simpa using hInv
  | cons nd rest ih =>
    intro g r hInv hunc hrange hnodup hcl hrl
    obtain ⟨hndrest, hrestnodup⟩ := List.nodup_cons.mp hnodup
    obtain ⟨hI, hC, hR, hN⟩ := buildStep_SCInv g nd r hInv (hunc nd (by simp))
      (hrange nd (by simp)) hcl hrl
    set g2 : CHGraph := (contract_node (setRankNat g nd (r : Int)) nd).1 with hg2
    have hstep : buildGo (nd :: rest) g r = buildGo rest g2 (r + 1) := rfl
    rw [hstep]
    have hres := ih g2 (r + 1) hI
      (by
        intro x hx
        have hxnd : x ≠ nd := fun hh => hndrest (hh ▸ hx)
        show contractedAt g2 x = false
        unfold contractedAt
        rw [hC, getD_set_ne _ _ _ _ _ (fun hh => hxnd hh.symm)]
        exact hunc x (by simp [hx]))
      (by intro x hx; rw [hN]; exact hrange x (by simp [hx])) hrestnodup
      (by rw [hC, List.length_set, hN]; exact hcl)
      (by rw [hR, List.length_set, hN]; exact hrl)
    have : r + 1 + rest.length = r + (nd :: rest).length := by simp; omega
    rw [← this]
    exact hres

end CHGraph

namespace CHGraph

theorem outEdges_mem_prop (g : CHGraph) (P : Edge → Prop)
    (h : ∀ l ∈ g.adj_out, ∀ e ∈ l, P e) : ∀ x, ∀ e ∈ outEdges g x, P e := by
  intro x e he
  unfold outEdges at he
  by_cases hx : x < g.adj_out.length
  · rw [List.getD_eq_getElem?_getD, List.getElem?_eq_getElem hx] at he
    exact h _ (List.getElem_mem hx) e he
  · rw [List.getD_eq_getElem?_getD, List.getElem?_eq_none (Nat.le_of_not_lt hx)] at he
    simp at he

theorem outEdgesI_nonneg_eq (g : CHGraph) (u : Int) (h : 0 ≤ u) :
    outEdgesI g u = outEdges g u.toNat := by
  unfold outEdgesI outEdges
  rw [if_pos h]

theorem unpackF_total_of_bound (g : CHGraph) (R : Nat) (hInv : SCInv g R) :
    ∀ (k fuel : Nat), k + 1 ≤ fuel → ∀ (u v : Int) (path : List Int),
      (∀ e ∈ outEdgesI g u, e.is_shortcut = true → (e.target : Int) = v →
        e.via_node ≠ -1 → rankAt g e.via_node.toNat < (k : Int)) →
      ∃ q, unpackF g fuel u v path = some q := by
  intro k
  induction k using Nat.strong_induction_on with
  | _ k ih =>
    intro fuel hfuel u v path hbound
    obtain ⟨f, rfl⟩ : ∃ f, fuel = f + 1 := ⟨fuel - 1, by omega⟩
    rcases hfind : (outEdgesI g u).find? (fun e => (e.target : Int) == v && e.is_shortcut
        && e.via_node != -1) with _ | e
    · exact ⟨path ++ [v], by unfold unpackF; rw [hfind]⟩
    · have hmem := List.mem_of_find?_eq_some hfind
      have hpred := List.find?_some hfind
      simp only [Bool.and_eq_true, beq_iff_eq, bne_iff_ne] at hpred
      obtain ⟨⟨htv, hsc⟩, hvia⟩ := hpred
      have hu0 : 0 ≤ u := by
        by_contra hh
        unfold outEdgesI at hmem
        rw [if_neg hh] at hmem
        exact absurd hmem (by simp)
      have hmem2 : e ∈ outEdges g u.toNat := by
        rw [← outEdgesI_nonneg_eq g u hu0]
        exact hmem
      obtain ⟨hv0, hvc, hcx, hct⟩ := hInv.2 u.toNat e hmem2 hsc
      have hrank := hbound e hmem hsc htv hvia
      have hrk0 : 0 ≤ rankAt g e.via_node.toNat := (hInv.1 _ hvc).1
      have hKcast : ((rankAt g e.via_node.toNat).toNat : Int) = rankAt g e.via_node.toNat :=
        Int.toNat_of_nonneg hrk0
      have hKlt : (rankAt g e.via_node.toNat).toNat < k := by omega
      have hb1 : ∀ e2 ∈ outEdgesI g u, e2.is_shortcut = true →
          (e2.target : Int) = e.via_node → e2.via_node ≠ -1 →
          rankAt g e2.via_node.toNat < ((rankAt g e.via_node.toNat).toNat : Int) := by
        intro e2 he2 hsc2 ht2 _
        have hmem2b : e2 ∈ outEdges g u.toNat := by
          rw [← outEdgesI_nonneg_eq g u hu0]
          exact he2
        obtain ⟨_, _, _, hct2⟩ := hInv.2 u.toNat e2 hmem2b hsc2
        have hteq : e2.target = e.via_node.toNat := by omega
        rw [hKcast, ← hteq]
        exact hct2 (hteq ▸ hvc)
      have hb2 : ∀ e2 ∈ outEdgesI g e.via_node, e2.is_shortcut = true →
          (e2.target : Int) = v → e2.via_node ≠ -1 →
          rankAt g e2.via_node.toNat < ((rankAt g e.via_node.toNat).toNat : Int) := by
        intro e2 he2 hsc2 _ _
        have hmem2b : e2 ∈ outEdges g e.via_node.toNat := by
          rw [← outEdgesI_nonneg_eq g e.via_node hv0]
          exact he2
        obtain ⟨_, _, hcx2, _⟩ := hInv.2 e.via_node.toNat e2 hmem2b hsc2
        rw [hKcast]
        exact hcx2 hvc
      obtain ⟨p1, hp1⟩ := ih _ hKlt f (by omega) u e.via_node path hb1
      obtain ⟨q, hq⟩ := ih _ hKlt f (by omega) e.via_node v p1 hb2
      refine ⟨q, ?_⟩
      unfold unpackF
      rw [hfind]
      dsimp only
      rw [hp1]
      simpa using hq

end CHGraph

open CHGraph in
/-- C9: if the graph is built by `build_ch` from a store containing no
shortcut edges and no contracted nodes, over a duplicate-free in-range
ordering, then every shortcut's via node was contracted strictly before the
shortcut was inserted, the via-rank recursion is well-founded, and `unpack`
terminates for every node pair: with any fuel beyond the ordering length it
returns a result. -/
theorem unpack_terminates_after_build (g : CHGraph) (n : Nat) (order : List Nat)
    (gF : CHGraph)
    (hn : g.num_nodes = n)
    (hcon : g.contracted = List.replicate n false)
    (hrl : g.rank.length = n)
    (hnosc : ∀ l ∈ g.adj_out, ∀ e ∈ l, e.is_shortcut = false)
    (hrange : ∀ x ∈ order, x < n) (hnodup : order.Nodup)
    (hbuild : build_ch g order = some gF) :
    ∀ (u v : Int) (path : List Int) (fuel : Nat), order.length + 1 ≤ fuel →
      ∃ q, unpackF gF fuel u v path = some q := by
  have hall : order.all (fun x => decide (x < g.num_nodes)) = true := by
    rw [List.all_eq_true]
    intro x hx
    rw [decide_eq_true_eq, hn]
    exact hrange x hx
  have hgF : gF = buildGo order { g with node_order := order } 0 := by
    unfold build_ch at hbuild
    rw [if_pos hall] at hbuild
    exact (Option.some.injEq _ _ ▸ hbuild).symm
  set g0 : CHGraph := { g with node_order := order } with hg0
  have hg0con : ∀ x, contractedAt g0 x = false := by
    intro x
    show g.contracted.getD x false = false
    rw [hcon, getD_replicate]
  have hInv0 : SCInv g0 0 := by
    constructor
    · intro x hx
      rw [hg0con x] at hx
      exact absurd hx (by simp)
    · intro x e he hsc
      have hfalse := outEdges_mem_prop g0 (fun e => e.is_shortcut = false)
        (by intro l hl e2 he2; exact hnosc l hl e2 he2) x e he
      rw [hfalse] at hsc
      exact absurd hsc (by simp)
  have hInvF : SCInv gF order.length := by
    rw [hgF]
    have := buildGo_SCInv order g0 0 hInv0 (fun x _ => hg0con x)
      (by intro x hx; show x < g.num_nodes; rw [hn]; exact hrange x hx) hnodup
      (by show g.contracted.length = g.num_nodes; rw [hcon, List.length_replicate, hn])
      (by show g.rank.length = g.num_nodes; rw [hrl, hn])
    simpa using this
  intro u v path fuel hfuel
  apply unpackF_total_of_bound gF order.length hInvF order.length fuel hfuel
  intro e he hsc _ _
  have hu0 : 0 ≤ u := by
    by_contra hh
    unfold outEdgesI at he
    rw [if_neg hh] at he
    exact absurd he (by simp)
  have hmem : e ∈ outEdges gF u.toNat := by
    rw [← outEdgesI_nonneg_eq gF u hu0]
    exact he
  obtain ⟨_, hvc, _, _⟩ := hInvF.2 u.toNat e hmem hsc
  exact (hInvF.1 _ hvc).2

set_option maxRecDepth 100000 in
/-- Witness for C9: building the 2-node base graph over `[0, 1]` yields
`c4wGraph`, and `unpack(0, 1)` succeeds with fuel 3. -/
theorem unpack_terminates_after_build_witness :
    ∃ q, CHGraph.unpackF c4wGraph 3 0 1 [] = some q :=
  unpack_terminates_after_build
    { num_nodes := 2
      adj_out := [[{ target := 1, weight := 1000, is_shortcut := false, via_node := -1 }], []]
      adj_in := [[], [{ target := 0, weight := 1000, is_shortcut := false, via_node := -1 }]]
      contracted := [false, false]
      rank := [-1, -1]
      node_order := [] }
    2 [0, 1] c4wGraph rfl rfl rfl (by decide) (by decide) (by decide)
    (by with_unfolding_all decide) 0 1 [] 3 (by decide)

/-! ### Claim C1: query optimality versus the reference oracle -/

/-- Spec-side definition.  Modelled from the spec: §8 invariant 4 compares
the query distance against "the shortest-path distance computed by a
reference Dijkstra on the original (non-augmented) graph"; the reference
Dijkstra itself is not part of the C++ source.  One Bellman–Ford relaxation
sweep over the original edge list — with nonnegative weights, iterating it
`n` times computes exactly the Dijkstra distances. -/
def specRelaxAll (edges : List (Nat × Nat × Rat)) (dist : List (Option Rat)) :
    List (Option Rat) :=
  edges.foldl (fun dist ed =>
    match dist.getD ed.1 none with
    | none => dist
    | some du =>
      match dist.getD ed.2.1 none with
      | none => dist.set ed.2.1 (some (du + ed.2.2))
      | some dv => if du + ed.2.2 < dv then dist.set ed.2.1 (some (du + ed.2.2)) else dist)
    dist

/-- Spec-side definition: iterate the relaxation sweep. -/
def specIter (edges : List (Nat × Nat × Rat)) : Nat → List (Option Rat) → List (Option Rat)
  | 0, dist => dist
  | k + 1, dist => specIter edges k (specRelaxAll edges dist)

/-- Spec-side definition: the reference shortest-path distance from `s` to
`t` on the original `n`-node graph given by `edges` (`none` = unreachable). -/
def specShortestDist (n : Nat) (edges : List (Nat × Nat × Rat)) (s t : Nat) : Option Rat :=
  (specIter edges n ((List.replicate n (none : Option Rat)).set s (some 0))).getD t none

/-- The C1 failing input: a 22-node star.  Nodes 1..11 each have a base
edge into node 0 of weight 1000, and node 0 has a base edge into each of
nodes 12..21 of weight 1000. -/
def c1Base : List (Nat × Nat × Rat) :=
  ((List.range 11).map fun i => ((i + 1 : Nat), (0 : Nat), (1000 : Rat)))
    ++ ((List.range 10).map fun j => ((0 : Nat), (12 + j : Nat), (1000 : Rat)))

/-- Insert a list of base edges through `add_edge`. -/
def addEdges : CHGraph → List (Nat × Nat × Rat) → Option CHGraph
  | g, [] => some g
  | g, (u, v, w) :: rest =>
    (CHGraph.add_edge g (u : Int) (v : Int) w).bind fun g1 => addEdges g1 rest

/-- The engine state for the C1 failing input: the 22-node star built and
preprocessed with the identity ordering.  Contracting node 0 generates
11 × 10 = 110 unwitnessed candidate pairs, of which only the first 100 are
inserted before the cap fires. -/
def c1Graph : Option CHGraph :=
  (addEdges (CHGraph.new 22) c1Base).bind fun g => CHGraph.build_ch g (List.range 22)

theorem specIter_fix (edges : List (Nat × Nat × Rat)) (d : List (Option Rat))
    (h : specRelaxAll edges d = d) : ∀ k, specIter edges k d = d := by
  intro k
  induction k with
  | zero => rfl
  | succ j ihj =>
    show specIter edges j (specRelaxAll edges d) = d
    rw [h]
    exact ihj

/-- The distance table reached after one relaxation sweep on the C1 star
from source 11 (already the fixed point of further sweeps). -/
def c1Dist1 : List (Option Rat) :=
  [some 1000] ++ List.replicate 10 none ++ [some 0] ++ List.replicate 10 (some 2000)

set_option maxRecDepth 4000000 in
/-- C1: evaluation at the failing input.  The pair `(11, 12)` lost its
shortcut to the 100-insertion cap, and both endpoints' base edges point
against the rank order, so the bidirectional upward search finds no meeting
node: `query(11, 12)` returns the unreachable sentinel `([], 0.0)`, while
the reference shortest-path distance is 2000 (so the claimed distance would
be `2000 / 1000 = 2.0 ≠ 0.0`).  This refutes the optimality claim and
confirms the spec's own §7 warning that the cap can violate the CH
invariant. -/
theorem query_cap_breaks_optimality_eval :
    (c1Graph.bind fun g => CHGraph.query g 11 12) = some ([], 0) ∧
    specShortestDist 22 c1Base 11 12 = some 2000 ∧
    ¬ ((0 : Rat) = 2000 / 1000) := by
  refine ⟨?_, ?_, ?_⟩
  · with_unfolding_all decide
  · have h1 : specRelaxAll c1Base
        ((List.replicate 22 (none : Option Rat)).set 11 (some 0)) = c1Dist1 := by
      with_unfolding_all decide
    have h2 : specRelaxAll c1Base c1Dist1 = c1Dist1 := by
      with_unfolding_all decide
    show (specIter c1Base 22 ((List.replicate 22 (none : Option Rat)).set 11 (some 0))).getD
        12 none = some 2000
    rw [show specIter c1Base 22 ((List.replicate 22 (none : Option Rat)).set 11 (some 0))
        = specIter c1Base 21 c1Dist1 from by rw [specIter, h1]]
    rw [specIter_fix c1Base c1Dist1 h2 21]
    with_unfolding_all decide
  · norm_num

/-! ### Claim C3: characterization of `witness_search` -/

namespace CHGraph

theorem popMinBy_eq_none {α : Type} (le : α → α → Bool) (l : List α) :
    popMinBy le l = none ↔ l = [] := by
  cases l with
  | nil => simp [popMinBy]
  | cons a rest =>
    simp only [popMinBy]
    constructor
    · intro h
      rcases hrest : popMinBy le rest with _ | p
      · rw [hrest] at h; exact absurd h (by simp)
      · rw [hrest] at h
        rcases p with ⟨m, r⟩
        dsimp only at h
        by_cases hle : le a m = true
        · rw [if_pos hle] at h; exact absurd h (by simp)
        · rw [if_neg hle] at h; exact absurd h (by simp)
    · intro h; exact absurd h (by simp)

theorem popMinBy_mem {α : Type} (le : α → α → Bool) :
    ∀ (l : List α) (m : α) (r : List α), popMinBy le l = some (m, r) → m ∈ l := by
  intro l
  induction l with
  | nil => intro m r h; exact absurd h (by simp [popMinBy])
  | cons a rest ih =>
    intro m r h
    simp only [popMinBy] at h
    rcases hrest : popMinBy le rest with _ | p
    · rw [hrest] at h
      simp only [Option.some.injEq, Prod.mk.injEq] at h
      simp [h.1.symm]
    · rw [hrest] at h
      rcases p with ⟨m1, r1⟩
      dsimp only at h
      by_cases hle : le a m1 = true
      · rw [if_pos hle] at h
        simp only [Option.some.injEq, Prod.mk.injEq] at h
        obtain ⟨hm, hr⟩ := h
        subst hm
        simp
      · rw [if_neg hle] at h
        simp only [Option.some.injEq, Prod.mk.injEq] at h
        obtain ⟨hm, hr⟩ := h
        subst hm
        simp [ih m1 r1 hrest]

theorem popMinBy_cover {α : Type} (le : α → α → Bool) :
    ∀ (l : List α) (m : α) (r : List α), popMinBy le l = some (m, r) →
      ∀ x ∈ l, x = m ∨ x ∈ r := by
  intro l
  induction l with
  | nil => intro m r h; exact absurd h (by simp [popMinBy])
  | cons a rest ih =>
    intro m r h x hx
    simp only [popMinBy] at h
    rcases hrest : popMinBy le rest with _ | p
    · rw [hrest] at h
      simp only [Option.some.injEq, Prod.mk.injEq] at h
      obtain ⟨hm, hr⟩ := h
      subst hm
      have hrnil : rest = [] := (popMinBy_eq_none le rest).1 hrest
      rcases List.mem_cons.1 hx with hxa | hxr
      · exact Or.inl hxa
      · rw [hrnil] at hxr; exact absurd hxr (by simp)
    · rw [hrest] at h
      rcases p with ⟨m1, r1⟩
      dsimp only at h
      by_cases hle : le a m1 = true
      · rw [if_pos hle] at h
        simp only [Option.some.injEq, Prod.mk.injEq] at h
        obtain ⟨hm, hr⟩ := h
        subst hm
        subst hr
        rcases List.mem_cons.1 hx with hxa | hxr
        · exact Or.inl hxa
        · exact Or.inr hxr
      · rw [if_neg hle] at h
        simp only [Option.some.injEq, Prod.mk.injEq] at h
        obtain ⟨hm, hr⟩ := h
        subst hm
        subst hr
        rcases List.mem_cons.1 hx with hxa | hxr
        · exact Or.inr (by simp [hxa])
        · rcases ih m1 r1 hrest x hxr with hh | hh
          · exact Or.inl hh
          · exact Or.inr (by simp [hh])

theorem popMinBy_sum {α : Type} (le : α → α → Bool) (f : α → Nat) :
    ∀ (l : List α) (m : α) (r : List α), popMinBy le l = some (m, r) →
      f m + (r.map f).sum = (l.map f).sum := by
  intro l
  induction l with
  | nil => intro m r h; exact absurd h (by simp [popMinBy])
  | cons a rest ih =>
    intro m r h
    simp only [popMinBy] at h
    rcases hrest : popMinBy le rest with _ | p
    · rw [hrest] at h
      simp only [Option.some.injEq, Prod.mk.injEq] at h
      obtain ⟨hm, hr⟩ := h
      subst hm
      subst hr
      have hrnil : rest = [] := (popMinBy_eq_none le rest).1 hrest
      rw [hrnil]
      simp
    · rw [hrest] at h
      rcases p with ⟨m1, r1⟩
      dsimp only at h
      by_cases hle : le a m1 = true
      · rw [if_pos hle] at h
        simp only [Option.some.injEq, Prod.mk.injEq] at h
        obtain ⟨hm, hr⟩ := h
        subst hm
        subst hr
        simp
      · rw [if_neg hle] at h
        simp only [Option.some.injEq, Prod.mk.injEq] at h
        obtain ⟨hm, hr⟩ := h
        subst hm
        subst hr
        have hsum := ih m1 r1 hrest
        simp only [List.map_cons, List.sum_cons]
        omega

theorem entryLe_true_fst (a b : Rat × Nat × Nat) (h : entryLe a b = true) : a.1 ≤ b.1 := by
  by_cases h1 : a.1 < b.1
  · exact le_of_lt h1
  · by_cases h2 : b.1 < a.1
    · unfold entryLe at h
      rw [if_neg h1, if_pos h2] at h
      exact absurd h (by simp)
    · exact le_of_not_lt h2

theorem entryLe_false_fst (a b : Rat × Nat × Nat) (h : entryLe a b = false) : b.1 ≤ a.1 := by
  by_cases h1 : a.1 < b.1
  · unfold entryLe at h
    rw [if_pos h1] at h
    exact absurd h (by simp)
  · exact le_of_not_lt h1

theorem popMinBy_entryLe_min :
    ∀ (l : List (Rat × Nat × Nat)) (m : Rat × Nat × Nat) (r : List (Rat × Nat × Nat)),
      popMinBy entryLe l = some (m, r) → ∀ x ∈ l, m.1 ≤ x.1 := by
  intro l
  induction l with
  | nil => intro m r h; exact absurd h (by simp [popMinBy])
  | cons a rest ih =>
    intro m r h x hx
    simp only [popMinBy] at h
    rcases hrest : popMinBy entryLe rest with _ | p
    · rw [hrest] at h
      simp only [Option.some.injEq, Prod.mk.injEq] at h
      obtain ⟨hm, hr⟩ := h
      subst hm
      have hrnil : rest = [] := (popMinBy_eq_none entryLe rest).1 hrest
      rcases List.mem_cons.1 hx with hxa | hxr
      · rw [hxa]
      · rw [hrnil] at hxr; exact absurd hxr (by simp)
    · rw [hrest] at h
      rcases p with ⟨m1, r1⟩
      dsimp only at h
      by_cases hle : entryLe a m1 = true
      · rw [if_pos hle] at h
        simp only [Option.some.injEq, Prod.mk.injEq] at h
        obtain ⟨hm, hr⟩ := h
        subst hm
        rcases List.mem_cons.1 hx with hxa | hxr
        · rw [hxa]
        · calc a.1 ≤ m1.1 := entryLe_true_fst a m1 hle
            _ ≤ x.1 := ih m1 r1 hrest x hxr
      · rw [if_neg hle] at h
        simp only [Option.some.injEq, Prod.mk.injEq] at h
        obtain ⟨hm, hr⟩ := h
        subst hm
        have hle2 : entryLe a m1 = false := by
          rcases Bool.eq_false_or_eq_true (entryLe a m1) with hh | hh
          · exact absurd hh hle
          · exact hh
        rcases List.mem_cons.1 hx with hxa | hxr
        · rw [hxa]
          exact entryLe_false_fst a m1 hle2
        · exact ih m1 r1 hrest x hxr

theorem mem_map_sum_le {α : Type} (f : α → Nat) :
    ∀ (l : List α) (x : α), x ∈ l → f x ≤ (l.map f).sum := by
  intro l
  induction l with
  | nil => intro x hx; exact absurd hx (by simp)
  | cons a rest ih =>
    intro x hx
    rcases List.mem_cons.1 hx with hxa | hxr
    · subst hxa; simp
    · have := ih x hxr
      simp only [List.map_cons, List.sum_cons]
      omega

theorem outEdges_length_le_totalOut (g : CHGraph) (c : Nat) :
    (outEdges g c).length ≤ totalOut g := by
  unfold outEdges totalOut
  by_cases hc : c < g.adj_out.length
  · rw [List.getD_eq_getElem?_getD, List.getElem?_eq_getElem hc]
    exact mem_map_sum_le List.length g.adj_out _ (List.getElem_mem hc)
  · rw [List.getD_eq_getElem?_getD, List.getElem?_eq_none (Nat.le_of_not_lt hc)]
    simp

end CHGraph

namespace CHGraph

/-- Spec-side path notion: `chainFrom g u es w` says the edge list `es`
forms a walk from `u` to `w` in `g`, each edge taken from the out-adjacency
of the node reached so far. -/
def chainFrom (g : CHGraph) : Nat → List Edge → Nat → Prop
  | u, [], w => u = w
  | u, e :: es, w => e ∈ outEdges g u ∧ chainFrom g e.target es w

theorem chain_sum_nonneg (g : CHGraph)
    (hw : ∀ x, ∀ e ∈ outEdges g x, 0 ≤ e.weight) :
    ∀ (es : List Edge) (c w : Nat), chainFrom g c es w → 0 ≤ (es.map Edge.weight).sum := by
  intro es
  induction es with
  | nil => intro c w _; simp
  | cons e rest ih =>
    intro c w hchain
    obtain ⟨hmem, hchain'⟩ := hchain
    have h1 : 0 ≤ e.weight := hw c e hmem
    have h2 : 0 ≤ (rest.map Edge.weight).sum := ih e.target w hchain'
    simp only [List.map_cons, List.sum_cons]
    positivity

theorem chain_append_edge (g : CHGraph) :
    ∀ (es : List Edge) (u c : Nat) (e : Edge), chainFrom g u es c → e ∈ outEdges g c →
      chainFrom g u (es ++ [e]) e.target := by
  intro es
  induction es with
  | nil =>
    intro u c e hchain hmem
    have hu : u = c := hchain
    subst hu
    exact ⟨hmem, rfl⟩
  | cons e1 rest ih =>
    intro u c e hchain hmem
    obtain ⟨hm1, hchain'⟩ := hchain
    exact ⟨hm1, ih e1.target c e hchain' hmem⟩

theorem sum_map_const_of {α : Type} (f : α → Nat) (c : Nat) :
    ∀ (l : List α), (∀ x ∈ l, f x = c) → (l.map f).sum = l.length * c := by
  intro l
  induction l with
  | nil => intro _; simp
  | cons a rest ih =>
    intro h
    simp only [List.map_cons, List.sum_cons, List.length_cons]
    rw [h a (by simp), ih (fun x hx => h x (by simp [hx]))]
    ring

/-- Unfolding step of `witnessAux` on positive fuel. -/
theorem witnessAux_succ (g : CHGraph) (v : Nat) (L : Rat) (excl : Int) (hop fuel : Nat)
    (pq : List (Rat × Nat × Nat)) :
    witnessAux g v L excl hop (fuel + 1) pq
      = match popMinBy entryLe pq with
        | none => false
        | some ((d, curr, h), rest) =>
          if L < d then false
          else if curr = v then true
          else if hop ≤ h then witnessAux g v L excl hop fuel rest
          else witnessAux g v L excl hop fuel (rest ++ (outEdges g curr).filterMap fun e =>
            if contractedAt g e.target && !(e.target == v) then none
            else if (e.target : Int) == excl then none
            else if d + e.weight ≤ L then some (d + e.weight, e.target, h + 1)
            else none) := rfl

theorem mem_pushes_of_step (g : CHGraph) (v : Nat) (L : Rat) (excl : Int)
    (d : Rat) (h c : Nat) (e : Edge) (he : e ∈ outEdges g c)
    (hcond : contractedAt g e.target = false ∨ e.target = v)
    (hexcl : (e.target : Int) ≠ excl) (hle : d + e.weight ≤ L) :
    (d + e.weight, e.target, h + 1) ∈ (outEdges g c).filterMap fun e =>
      if contractedAt g e.target && !(e.target == v) then none
      else if (e.target : Int) == excl then none
      else if d + e.weight ≤ L then some (d + e.weight, e.target, h + 1)
      else none := by
  apply List.mem_filterMap.mpr
  refine ⟨e, he, ?_⟩
  have h1 : (contractedAt g e.target && !(e.target == v)) = false := by
    rcases hcond with hc | hc
    · simp [hc]
    · simp [hc]
  have h2 : ((e.target : Int) == excl) = false := by
    simp [hexcl]
  rw [h1, h2]
  simp [hle]

theorem mem_pushes_shape (g : CHGraph) (v : Nat) (L : Rat) (excl : Int)
    (d : Rat) (h c : Nat) (x : Rat × Nat × Nat)
    (hx : x ∈ (outEdges g c).filterMap fun e =>
      if contractedAt g e.target && !(e.target == v) then none
      else if (e.target : Int) == excl then none
      else if d + e.weight ≤ L then some (d + e.weight, e.target, h + 1)
      else none) :
    ∃ e ∈ outEdges g c, (contractedAt g e.target = false ∨ e.target = v) ∧
      (e.target : Int) ≠ excl ∧ d + e.weight ≤ L ∧ x = (d + e.weight, e.target, h + 1) := by
  obtain ⟨e, he, hsome⟩ := List.mem_filterMap.mp hx
  refine ⟨e, he, ?_⟩
  by_cases h1 : (contractedAt g e.target && !(e.target == v)) = true
  · rw [if_pos h1] at hsome
    exact absurd hsome (by simp)
  · have h1f : (contractedAt g e.target && !(e.target == v)) = false := by
      rcases Bool.eq_false_or_eq_true (contractedAt g e.target && !(e.target == v)) with hh | hh
      · exact absurd hh h1
      · exact hh
    rw [h1f] at hsome
    simp only [Bool.false_eq_true, if_false] at hsome
    by_cases h2 : ((e.target : Int) == excl) = true
    · rw [if_pos h2] at hsome
      exact absurd hsome (by simp)
    · have h2f : ((e.target : Int) == excl) = false := by
        rcases Bool.eq_false_or_eq_true ((e.target : Int) == excl) with hh | hh
        · exact absurd hh h2
        · exact hh
      rw [h2f] at hsome
      simp only [Bool.false_eq_true, if_false] at hsome
      by_cases h3 : d + e.weight ≤ L
      · rw [if_pos h3] at hsome
        simp only [Option.some.injEq] at hsome
        refine ⟨?_, ?_, h3, hsome.symm⟩
        · simp only [Bool.and_eq_false_iff] at h1f
          rcases h1f with hh | hh
          · exact Or.inl hh
          · simp only [Bool.not_eq_false', beq_iff_eq] at hh
            exact Or.inr hh
        · simpa using h2f
      · rw [if_neg h3] at hsome
        exact absurd hsome (by simp)

theorem witnessAux_complete (g : CHGraph) (v : Nat) (L : Rat) (excl : Int) (hop : Nat)
    (hw : ∀ x, ∀ e ∈ outEdges g x, 0 ≤ e.weight) :
    ∀ (fuel : Nat) (pq : List (Rat × Nat × Nat)),
      (pq.map (fun p => (totalOut g + 1) ^ (hop - p.2.2))).sum ≤ fuel →
      witnessAux g v L excl hop fuel pq = false →
      ∀ p ∈ pq, ∀ es, chainFrom g p.2.1 es v →
        (∀ e ∈ es, (e.target : Int) ≠ excl ∧
          (contractedAt g e.target = false ∨ e.target = v)) →
        p.1 + (es.map Edge.weight).sum ≤ L → p.2.2 + es.length ≤ hop → False := by
  intro fuel
  induction fuel with
  | zero =>
    intro pq hmeas _ p hp _ _ _ _ _
    have h1 : 1 ≤ (totalOut g + 1) ^ (hop - p.2.2) := Nat.one_le_pow _ _ (by omega)
    have h2 := mem_map_sum_le (fun p => (totalOut g + 1) ^ (hop - p.2.2)) pq p hp
    simp only at h2
    omega
  | succ f ih =>
    intro pq hmeas hres p hp es hchain hconds hwle hhle
    rw [witnessAux_succ] at hres
    rcases hpop : popMinBy entryLe pq with _ | mr
    · have hnil := (popMinBy_eq_none entryLe pq).1 hpop
      rw [hnil] at hp
      exact absurd hp (by simp)
    · rcases mr with ⟨⟨d, c, hh⟩, rest⟩
      rw [hpop] at hres
      dsimp only at hres
      have hcover := popMinBy_cover entryLe pq _ _ hpop
      have hmin := popMinBy_entryLe_min pq _ _ hpop
      have hsum := popMinBy_sum entryLe (fun p => (totalOut g + 1) ^ (hop - p.2.2)) pq _ _ hpop
      by_cases hLd : L < d
      · have hdp : d ≤ p.1 := hmin p hp
        have hnn : 0 ≤ (es.map Edge.weight).sum := chain_sum_nonneg g hw es p.2.1 v hchain
        linarith
      · rw [if_neg hLd] at hres
        by_cases hcv : c = v
        · rw [if_pos hcv] at hres
          exact absurd hres (by simp)
        · rw [if_neg hcv] at hres
          by_cases hhop : hop ≤ hh
          · rw [if_pos hhop] at hres
            have hterm : 1 ≤ (totalOut g + 1) ^ (hop - hh) := Nat.one_le_pow _ _ (by omega)
            have hmr : (rest.map (fun p => (totalOut g + 1) ^ (hop - p.2.2))).sum ≤ f := by
              simp only at hsum
              omega
            rcases hcover p hp with hpm | hpr
            · rcases es with _ | ⟨e1, es'⟩
              · have : p.2.1 = v := hchain
                rw [hpm] at this
                exact hcv this
              · rw [hpm] at hhle
                simp only [List.length_cons] at hhle
                omega
            · exact ih rest hmr hres p hpr es hchain hconds hwle hhle
          · rw [if_neg hhop] at hres
            have hshape := fun x hx => mem_pushes_shape g v L excl d hh c x hx
            have hallh : ∀ x ∈ (outEdges g c).filterMap (fun e =>
                if contractedAt g e.target && !(e.target == v) then none
                else if (e.target : Int) == excl then none
                else if d + e.weight ≤ L then some (d + e.weight, e.target, hh + 1)
                else none),
                (fun p => (totalOut g + 1) ^ (hop - p.2.2)) x
                  = (totalOut g + 1) ^ (hop - (hh + 1)) := by
              intro x hx
              obtain ⟨e, _, _, _, _, hxeq⟩ := hshape x hx
              rw [hxeq]
            have hpl : ((outEdges g c).filterMap (fun e =>
                if contractedAt g e.target && !(e.target == v) then none
                else if (e.target : Int) == excl then none
                else if d + e.weight ≤ L then some (d + e.weight, e.target, hh + 1)
                else none)).length ≤ totalOut g :=
              le_trans (List.length_filterMap_le _ _) (outEdges_length_le_totalOut g c)
            have hmeas2 : (((rest ++ (outEdges g c).filterMap (fun e =>
                if contractedAt g e.target && !(e.target == v) then none
                else if (e.target : Int) == excl then none
                else if d + e.weight ≤ L then some (d + e.weight, e.target, hh + 1)
                else none)).map (fun p => (totalOut g + 1) ^ (hop - p.2.2))).sum) ≤ f := by
              rw [List.map_append, List.sum_append]
              rw [sum_map_const_of _ _ _ hallh]
              have hXpos : 1 ≤ (totalOut g + 1) ^ (hop - (hh + 1)) :=
                Nat.one_le_pow _ _ (by omega)
              have hsplit : (totalOut g + 1) ^ (hop - hh)
                  = (totalOut g + 1) ^ (hop - (hh + 1)) * (totalOut g + 1) := by
                rw [← pow_succ]
                congr 1
                omega
              have hmul : ((outEdges g c).filterMap (fun e =>
                  if contractedAt g e.target && !(e.target == v) then none
                  else if (e.target : Int) == excl then none
                  else if d + e.weight ≤ L then some (d + e.weight, e.target, hh + 1)
                  else none)).length * (totalOut g + 1) ^ (hop - (hh + 1))
                  ≤ totalOut g * (totalOut g + 1) ^ (hop - (hh + 1)) :=
                Nat.mul_le_mul_right _ hpl
              simp only at hsum
              rw [hsplit] at hsum
              have hexp : (totalOut g + 1) ^ (hop - (hh + 1)) * (totalOut g + 1)
                  = totalOut g * (totalOut g + 1) ^ (hop - (hh + 1))
                    + (totalOut g + 1) ^ (hop - (hh + 1)) := by ring
              omega
            have IH := ih _ hmeas2 hres
            rcases hcover p hp with hpm | hpr
            · rcases es with _ | ⟨e1, es'⟩
              · have hpv : p.2.1 = v := hchain
                rw [hpm] at hpv
                exact hcv hpv
              · obtain ⟨he1, hchain'⟩ := hchain
                have hp21 : p.2.1 = c := by rw [hpm]
                have hp1 : p.1 = d := by rw [hpm]
                have hp22 : p.2.2 = hh := by rw [hpm]
                rw [hp21] at he1
                have hc1 := hconds e1 (by simp)
                have hnn : 0 ≤ (es'.map Edge.weight).sum :=
                  chain_sum_nonneg g hw es' e1.target v hchain'
                have hwle' : d + (e1.weight + (es'.map Edge.weight).sum) ≤ L := by
                  simp only [List.map_cons, List.sum_cons] at hwle
                  rw [hp1] at hwle
                  exact hwle
                have hdw : d + e1.weight ≤ L := by linarith
                have hpush := mem_pushes_of_step g v L excl d hh c e1 he1 hc1.2 hc1.1 hdw
                apply IH (d + e1.weight, e1.target, hh + 1)
                  (List.mem_append.mpr (Or.inr hpush)) es' hchain'
                  (fun e he => hconds e (by simp [he]))
                · show d + e1.weight + (es'.map Edge.weight).sum ≤ L
                  linarith
                · show hh + 1 + es'.length ≤ hop
                  rw [hp22] at hhle
                  simp only [List.length_cons] at hhle
                  omega
            · exact IH p (List.mem_append.mpr (Or.inl hpr)) es hchain hconds hwle hhle

end CHGraph

namespace CHGraph

theorem popMinBy_rest_subset {α : Type} (le : α → α → Bool) :
    ∀ (l : List α) (m : α) (r : List α), popMinBy le l = some (m, r) → ∀ x ∈ r, x ∈ l := by
  intro l
  induction l with
  | nil => intro m r h; exact absurd h (by simp [popMinBy])
  | cons a rest ih =>
    intro m r h x hx
    simp only [popMinBy] at h
    rcases hrest : popMinBy le rest with _ | p
    · rw [hrest] at h
      simp only [Option.some.injEq, Prod.mk.injEq] at h
      rw [← h.2] at hx
      exact absurd hx (by simp)
    · rw [hrest] at h
      rcases p with ⟨m1, r1⟩
      dsimp only at h
      by_cases hle : le a m1 = true
      · rw [if_pos hle] at h
        simp only [Option.some.injEq, Prod.mk.injEq] at h
        rw [← h.2] at hx
        simp [hx]
      · rw [if_neg hle] at h
        simp only [Option.some.injEq, Prod.mk.injEq] at h
        rw [← h.2] at hx
        rcases List.mem_cons.1 hx with hxa | hxr
        · simp [hxa]
        · simp [ih m1 r1 hrest x hxr]

theorem witnessAux_sound (g : CHGraph) (u v : Nat) (L : Rat) (excl : Int) (hop : Nat) :
    ∀ (fuel : Nat) (pq : List (Rat × Nat × Nat)),
      (∀ p ∈ pq, ∃ es, chainFrom g u es p.2.1 ∧
        (∀ e ∈ es, (e.target : Int) ≠ excl ∧
          (contractedAt g e.target = false ∨ e.target = v)) ∧
        (es.map Edge.weight).sum = p.1 ∧ es.length = p.2.2 ∧ p.2.2 ≤ hop) →
      witnessAux g v L excl hop fuel pq = true →
      ∃ es, chainFrom g u es v ∧
        (∀ e ∈ es, (e.target : Int) ≠ excl ∧
          (contractedAt g e.target = false ∨ e.target = v)) ∧
        (es.map Edge.weight).sum ≤ L ∧ es.length ≤ hop := by
  intro fuel
  induction fuel with
  | zero =>
    intro pq _ hres
    exact absurd hres (by simp [witnessAux])
  | succ f ih =>
    intro pq hGood hres
    rw [witnessAux_succ] at hres
    rcases hpop : popMinBy entryLe pq with _ | mr
    · rw [hpop] at hres
      exact absurd hres (by simp)
    · rcases mr with ⟨⟨d, c, hh⟩, rest⟩
      rw [hpop] at hres
      dsimp only at hres
      have hmemP := popMinBy_mem entryLe pq _ _ hpop
      have hsub := popMinBy_rest_subset entryLe pq _ _ hpop
      by_cases hLd : L < d
      · rw [if_pos hLd] at hres
        exact absurd hres (by simp)
      · rw [if_neg hLd] at hres
        by_cases hcv : c = v
        · obtain ⟨es, hchain, hconds, hsum, hlen, hle⟩ := hGood (d, c, hh) hmemP
          refine ⟨es, ?_, hconds, ?_, ?_⟩
          · rw [← hcv]
            exact hchain
          · rw [hsum]
            exact le_of_not_lt hLd
          · simp only at hlen hle
            omega
        · rw [if_neg hcv] at hres
          by_cases hhop : hop ≤ hh
          · rw [if_pos hhop] at hres
            exact ih rest (fun p hp => hGood p (hsub p hp)) hres
          · rw [if_neg hhop] at hres
            apply ih _ ?_ hres
            intro p hp
            rcases List.mem_append.1 hp with hpr | hppush
            · exact hGood p (hsub p hpr)
            · obtain ⟨e, he, hcond, hexcl, hdw, hxeq⟩ :=
                mem_pushes_shape g v L excl d hh c p hppush
              obtain ⟨es, hchain, hconds, hsum, hlen, hle⟩ := hGood (d, c, hh) hmemP
              refine ⟨es ++ [e], ?_, ?_, ?_, ?_, ?_⟩
              · rw [hxeq]
                exact chain_append_edge g es u c e
                  (by simpa using hchain) he
              · intro e2 he2
                rcases List.mem_append.1 he2 with hh2 | hh2
                · exact hconds e2 hh2
                · simp only [List.mem_singleton] at hh2
                  subst hh2
                  exact ⟨hexcl, hcond⟩
              · rw [hxeq]
                simp only [List.map_append, List.sum_append, List.map_cons, List.map_nil,
                  List.sum_cons, List.sum_nil]
                simp only at hsum
                rw [hsum]
                ring_nf
              · rw [hxeq]
                simp only [List.length_append, List.length_singleton]
                simp only at hlen
                omega
              · rw [hxeq]
                simp only
                omega

end CHGraph

open CHGraph in
/-- C3 (amended): `witness_search(u, w, L, exclude, hop_limit)` returns
`true` iff a direct edge `u → w` of weight at most `L` exists (the early
exit, regardless of the hop limit, the exclusion and contraction flags), or
there is a walk from `u` to `w` of total weight at most `L` using at most
`hop_limit` edges in which every visited node after `u` differs from
`exclude` and is either uncontracted or equal to `w`; edge weights are
assumed nonnegative as in the host's scaling convention. -/
theorem witness_search_characterization (g : CHGraph) (u v : Nat) (L : Rat) (excl : Int)
    (hop : Nat) (hw : ∀ x, ∀ e ∈ outEdges g x, 0 ≤ e.weight) :
    witness_search g u v L excl hop = true ↔
      ((∃ e ∈ outEdges g u, e.target = v ∧ e.weight ≤ L) ∨
        (∃ es, chainFrom g u es v ∧ (es.map Edge.weight).sum ≤ L ∧ es.length ≤ hop ∧
          ∀ e ∈ es, (e.target : Int) ≠ excl ∧
            (contractedAt g e.target = false ∨ e.target = v))) := by
  unfold witness_search
  by_cases hany : ((outEdges g u).any fun e => e.target == v && decide (e.weight ≤ L)) = true
  · rw [if_pos hany]
    constructor
    · intro _
      obtain ⟨e, he, hpred⟩ := List.any_eq_true.mp hany
      simp only [Bool.and_eq_true, beq_iff_eq, decide_eq_true_eq] at hpred
      exact Or.inl ⟨e, he, hpred.1, hpred.2⟩
    · intro _
      rfl
  · rw [if_neg hany]
    constructor
    · intro htrue
      have hS := witnessAux_sound g u v L excl hop _ [(0, u, 0)] ?_ htrue
      · obtain ⟨es, hchain, hconds, hsum, hlen⟩ := hS
        exact Or.inr ⟨es, hchain, hsum, hlen, hconds⟩
      · intro p hp
        simp only [List.mem_singleton] at hp
        subst hp
        exact ⟨[], rfl, by simp, by simp, by simp, by simp⟩
    · rintro (⟨e, he, htv, hwl⟩ | ⟨es, hchain, hsum, hlen, hconds⟩)
      · exact absurd (List.any_eq_true.mpr ⟨e, he, by simp [htv, hwl]⟩) hany
      · rcases hB : witnessAux g v L excl hop ((totalOut g + 1) ^ hop + 1) [(0, u, 0)]
            with _ | _
        · exfalso
          refine witnessAux_complete g v L excl hop hw _ [(0, u, 0)] ?_ hB (0, u, 0)
            (by simp) es hchain hconds ?_ ?_
          · simp
          · simpa using hsum
          · simpa using hlen
        · rfl

/-- Witness for C3 (amended) at the concrete graph `c4wGraph`. -/
theorem witness_search_characterization_witness :
    CHGraph.witness_search c4wGraph 0 1 1000 (-7) 2 = true ↔
      ((∃ e ∈ CHGraph.outEdges c4wGraph 0, e.target = 1 ∧ e.weight ≤ 1000) ∨
        (∃ es, CHGraph.chainFrom c4wGraph 0 es 1 ∧
          (es.map Edge.weight).sum ≤ 1000 ∧ es.length ≤ 2 ∧
          ∀ e ∈ es, (e.target : Int) ≠ (-7) ∧
            (CHGraph.contractedAt c4wGraph e.target = false ∨ e.target = 1))) :=
  witness_search_characterization c4wGraph 0 1 1000 (-7) 2
    (CHGraph.outEdges_mem_prop c4wGraph (fun e => 0 ≤ e.weight) (by decide))

/-- The state used to refute C3 as stated: reached through the exported
API by `add_edge(1,2,1000)`, `build_ch([1])` (which contracts node 1
without shortcuts), then `add_edge(0,1,1000)`. -/
def c3CounterGraph : CHGraph :=
  { num_nodes := 4
    adj_out := [[{ target := 1, weight := 1000, is_shortcut := false, via_node := -1 }],
                [{ target := 2, weight := 1000, is_shortcut := false, via_node := -1 }],
                [], []]
    adj_in := [[],
               [{ target := 0, weight := 1000, is_shortcut := false, via_node := -1 }],
               [{ target := 1, weight := 1000, is_shortcut := false, via_node := -1 }],
               []]
    contracted := [false, true, false, false]
    rank := [-1, 0, -1, -1]
    node_order := [1] }

set_option maxRecDepth 100000 in
/-- C3 counterexample: on `c3CounterGraph` (a state reached through the
exported API), the path `0 → 1 → 2` has weight 2000 ≤ 10000, two hops
≤ 3, and never visits the excluded node 3 — so the claim as stated demands
`witness_search(0, 2, 10000, 3, 3) = true` — yet the code returns `false`,
because it additionally skips the contracted intermediate node 1, a
condition the claim omits. -/
theorem witness_search_claim_counterexample :
    ((CHGraph.add_edge (CHGraph.new 4) 1 2 1000).bind fun g =>
        (CHGraph.build_ch g [1]).bind fun g1 => CHGraph.add_edge g1 0 1 1000)
      = some c3CounterGraph ∧
    CHGraph.witness_search c3CounterGraph 0 2 10000 3 3 = false ∧
    CHGraph.chainFrom c3CounterGraph 0
      [{ target := 1, weight := 1000, is_shortcut := false, via_node := -1 },
       { target := 2, weight := 1000, is_shortcut := false, via_node := -1 }] 2 ∧
    (([{ target := 1, weight := 1000, is_shortcut := false, via_node := -1 },
       { target := 2, weight := 1000, is_shortcut := false, via_node := -1 }] : List Edge).map
        Edge.weight).sum ≤ 10000 ∧
    ([{ target := 1, weight := 1000, is_shortcut := false, via_node := -1 },
      { target := 2, weight := 1000, is_shortcut := false, via_node := -1 }] : List Edge).length
        ≤ 3 ∧
    ∀ e ∈ ([{ target := 1, weight := 1000, is_shortcut := false, via_node := -1 },
            { target := 2, weight := 1000, is_shortcut := false, via_node := -1 }] : List Edge),
      (e.target : Int) ≠ 3 := by
  refine ⟨?_, ?_, ?_, ?_, ?_, ?_⟩
  · with_unfolding_all decide
  · with_unfolding_all decide
  · exact ⟨by decide, by decide, rfl⟩
  · with_unfolding_all decide
  · decide
  · decide
